import Mathlib

/-!
# History sanitizer of `pkg/agent/context.go`

A shallow embedding of `sanitizeHistoryForProvider` and of the message
constructors around it.  Go slices are Lean lists, a slice index `s[i]` is
`s[i]` with the bound in scope, and a `map[string]bool` that only ever stores
`true` is the list of its distinct keys.  The debug logging calls have no
effect on the returned slice and are left out.
-/

namespace Picoclaw

/-! ## The program -/

/-- Modelled from the spec: the type `providers.ToolCall` is declared outside
`pkg/agent/context.go`; a tool-call descriptor has an `id` and an opaque
payload (name and arguments). -/
structure ToolCall where
  id : String
  name : String
  arguments : String
deriving DecidableEq, Repr

/-- Modelled from the spec: the type `providers.ContentPart` is declared
outside `pkg/agent/context.go`; a typed part (text or image reference) of a
multimodal turn. -/
structure ContentPart where
  type : String
  text : String
  imageURL : Option String
deriving DecidableEq, Repr

/-- Modelled from the spec: the type `providers.Message` is declared outside
`pkg/agent/context.go`; one transcript entry with the fields the code reads
and writes (`Role`, `Content`, `ToolCalls`, `ToolCallID`, `ContentParts`). -/
structure Message where
  role : String
  content : String
  toolCalls : List ToolCall
  toolCallID : String
  contentParts : List ContentPart
deriving DecidableEq, Repr

/-- The statement `m[k] = true` on a `map[string]bool` holding only `true`:
the key is added unless it is already present. -/
def setTrue (m : List String) (k : String) : List String :=
  if k ∈ m then m else m ++ [k]

/-- The backward scan of pass 1 (`for j := len(sanitized) - 1; j >= 0; j--`),
with `n = j + 1`: tool messages are skipped, the first other message decides
`hasAssistant`, and running off the front leaves it `false`. -/
def hasAssistant (sanitized : List Message) : (n : Nat) → n ≤ sanitized.length → Bool
  | 0, _ => false
  | n + 1, h =>
    have hn : n < sanitized.length := h
    if sanitized[n].role = "tool" then
      hasAssistant sanitized n (Nat.le_of_lt hn)
    else
      decide (sanitized[n].role = "assistant" ∧ sanitized[n].toolCalls.length > 0)

/-- One iteration of the pass-1 loop body (`switch msg.Role`): the new value
of `sanitized` after `msg` has been handled. -/
def pass1Step (sanitized : List Message) (msg : Message) : List Message :=
  if msg.role = "tool" then
    if sanitized.length = 0 then
      sanitized
    else if hasAssistant sanitized sanitized.length (Nat.le_refl _) = false then
      sanitized
    else
      sanitized ++ [msg]
  else if msg.role = "assistant" then
    if msg.toolCalls.length > 0 then
      if h : sanitized.length = 0 then
        sanitized
      else
        have hlt : sanitized.length - 1 < sanitized.length := by omega
        let prev := sanitized[sanitized.length - 1]
        if prev.role ≠ "user" ∧ prev.role ≠ "tool" then
          sanitized
        else
          sanitized ++ [msg]
    else
      sanitized ++ [msg]
  else
    if msg.role = "user" then
      if h : sanitized.length > 0 then
        have hlt : sanitized.length - 1 < sanitized.length := by omega
        if sanitized[sanitized.length - 1].role = "user" then
          sanitized.set (sanitized.length - 1) msg
        else
          sanitized ++ [msg]
      else
        sanitized ++ [msg]
    else
      sanitized ++ [msg]

/-- Pass 1: `for _, msg := range history` starting from an empty `sanitized`. -/
def pass1 (history : List Message) : List Message :=
  history.foldl pass1Step []

/-- The loop `for _, tc := range msg.ToolCalls` filling `expectedIDs`. -/
def collectExpected (toolCalls : List ToolCall) (expectedIDs : List String) : List String :=
  toolCalls.foldl (fun m tc => if tc.id ≠ "" then setTrue m tc.id else m) expectedIDs

/-- The look-ahead loop `for j < len(sanitized) && sanitized[j].Role == "tool"`:
returns the final `j` and `foundIDs`. -/
def lookAhead (sanitized : List Message) (j : Nat) (foundIDs : List String) :
    Nat × List String :=
  if h : j < sanitized.length then
    if sanitized[j].role = "tool" then
      lookAhead sanitized (j + 1)
        (if sanitized[j].toolCallID ≠ "" then setTrue foundIDs sanitized[j].toolCallID
         else foundIDs)
    else (j, foundIDs)
  else (j, foundIDs)
termination_by sanitized.length - j

/-- The look-ahead index never moves backward. -/
theorem lookAhead_ge (sanitized : List Message) (j : Nat) (foundIDs : List String) :
    j ≤ (lookAhead sanitized j foundIDs).1 := by
  induction j, foundIDs using lookAhead.induct sanitized with
  | case1 j f h ht ih =>
    rw [lookAhead, dif_pos h, if_pos ht]
    exact Nat.le_trans (Nat.le_succ j) ih
  | case2 j f h ht =>
    rw [lookAhead, dif_pos h, if_neg ht]
  | case3 j f h =>
    rw [lookAhead, dif_neg h]

/-- The look-ahead index stays within the slice when it starts within it. -/
theorem lookAhead_le (sanitized : List Message) (j : Nat) (foundIDs : List String)
    (hj : j ≤ sanitized.length) : (lookAhead sanitized j foundIDs).1 ≤ sanitized.length := by
  induction j, foundIDs using lookAhead.induct sanitized with
  | case1 j f h ht ih =>
    rw [lookAhead, dif_pos h, if_pos ht]
    exact ih h
  | case2 j f h ht =>
    rw [lookAhead, dif_pos h, if_neg ht]
    exact hj
  | case3 j f h =>
    rw [lookAhead, dif_neg h]
    exact hj

/-- The copy loop `for k := i; k < j; k++ { validated = append(validated, sanitized[k]) }`. -/
def copyRange (sanitized : List Message) (k j : Nat) (hj : j ≤ sanitized.length)
    (validated : List Message) : List Message :=
  if h : k < j then
    have hk : k < sanitized.length := Nat.lt_of_lt_of_le h hj
    copyRange sanitized (k + 1) j hj (validated ++ [sanitized[k]])
  else validated
termination_by j - k

/-- The check `complete := len(expectedIDs) > 0` followed by the loop that
clears it when some expected id is not in `foundIDs`. -/
def isComplete (expectedIDs foundIDs : List String) : Bool :=
  decide (expectedIDs.length > 0) && expectedIDs.all (fun id => decide (id ∈ foundIDs))

/-- Pass 2: the loop `for i < len(sanitized)` with its state `i`, `validated`. -/
def pass2Loop (sanitized : List Message) (i : Nat) (validated : List Message) :
    List Message :=
  if h : i < sanitized.length then
    let msg := sanitized[i]
    if msg.role = "assistant" ∧ msg.toolCalls.length > 0 then
      let expectedIDs := collectExpected msg.toolCalls []
      let r := lookAhead sanitized (i + 1) []
      have hr : r.1 ≤ sanitized.length := lookAhead_le sanitized (i + 1) [] h
      if isComplete expectedIDs r.2 then
        pass2Loop sanitized r.1 (copyRange sanitized i r.1 hr validated)
      else
        pass2Loop sanitized r.1 validated
    else
      pass2Loop sanitized (i + 1) (validated ++ [msg])
  else validated
termination_by sanitized.length - i
decreasing_by
  all_goals simp_wf
  · have := lookAhead_ge sanitized (i + 1) []
    omega
  · have := lookAhead_ge sanitized (i + 1) []
    omega
  · omega

/-- The function `sanitizeHistoryForProvider`: the empty history is returned
as it is, otherwise pass 1 then pass 2. -/
def sanitizeHistoryForProvider (history : List Message) : List Message :=
  if history.length = 0 then history
  else pass2Loop (pass1 history) 0 []

/-! ## List views of the two passes and the checks used in the statements -/

/-- The test `msg.Role == "tool"`. -/
def isTool (m : Message) : Bool := decide (m.role = "tool")

/-- The test `msg.Role == "assistant" && len(msg.ToolCalls) > 0`. -/
def isToolCallTurn (m : Message) : Bool :=
  decide (m.role = "assistant" ∧ m.toolCalls.length > 0)

/-- List view of the look-ahead loop: the `foundIDs` after a run of tool messages. -/
def foundIn (run : List Message) (foundIDs : List String) : List String :=
  run.foldl (fun f t => if t.toolCallID ≠ "" then setTrue f t.toolCallID else f) foundIDs

/-- List view of the completeness check of pass 2 for the turn `a` followed by
the tool run `run`. -/
def groupComplete (a : Message) (run : List Message) : Bool :=
  isComplete (collectExpected a.toolCalls []) (foundIn run [])

/-- List view of pass 2, used in the proofs (`pass2Loop_eq` relates it to the
index loop).  The mode is `none` at the loop head, `some true` inside the tool
run of a group that is copied, `some false` inside the run of a dropped one. -/
def pass2From : Option Bool → List Message → List Message
  | _, [] => []
  | mode, m :: rest =>
    if isTool m = true ∧ mode.isSome = true then
      if mode = some true then m :: pass2From mode rest else pass2From mode rest
    else if isToolCallTurn m = true then
      if groupComplete m (rest.takeWhile isTool) = true then m :: pass2From (some true) rest
      else pass2From (some false) rest
    else m :: pass2From none rest

/-- The message reached from the end of `pre` scanning backward and skipping
only tool-role messages, if there is one. -/
def scanBack (pre : List Message) : Option Message :=
  (pre.reverse.dropWhile isTool).head?

/-- Whether the backward scan over `pre` ends on an assistant tool-call turn. -/
def grounds (pre : List Message) : Bool :=
  match scanBack pre with
  | some a => isToolCallTurn a
  | none => false

/-- List view of `pass1Step`, used in the proofs (`pass1Step_eq`). -/
def pass1View (acc : List Message) (msg : Message) : List Message :=
  if isTool msg = true then
    if grounds acc = true then acc ++ [msg] else acc
  else if isToolCallTurn msg = true then
    match acc.getLast? with
    | some prev => if prev.role = "user" ∨ prev.role = "tool" then acc ++ [msg] else acc
    | none => acc
  else if msg.role = "user" then
    match acc.getLast? with
    | some prev => if prev.role = "user" then acc.dropLast ++ [msg] else acc ++ [msg]
    | none => acc ++ [msg]
  else acc ++ [msg]

/-- Messages that are neither user, nor tool, nor an assistant tool-call turn. -/
def isPassThrough (m : Message) : Bool :=
  decide (m.role ≠ "user" ∧ m.role ≠ "tool" ∧ ¬ (m.role = "assistant" ∧ m.toolCalls.length > 0))

/-- Left-to-right check of invariant I1: `b` tells whether a tool message is
acceptable at the head of the list. -/
def grounded : Bool → List Message → Bool
  | _, [] => true
  | b, m :: rest =>
    if isTool m = true then b && grounded b rest else grounded (isToolCallTurn m) rest

/-- The state of the `grounded` check after the list has been read. -/
def trail : Bool → List Message → Bool
  | b, [] => b
  | b, m :: rest => trail (if isTool m = true then b else isToolCallTurn m) rest

/-- Whether `prev` is a valid predecessor of an assistant tool-call turn: a
user or tool message. -/
def prevOK (prev : Option Message) : Bool :=
  match prev with
  | some p => decide (p.role = "user" ∨ p.role = "tool")
  | none => false

/-- Left-to-right check that every assistant tool-call turn comes right after
a user or tool message; `prev` is the message before the head of the list. -/
def anchored : Option Message → List Message → Bool
  | _, [] => true
  | prev, m :: rest =>
    (if isToolCallTurn m = true then prevOK prev else true) && anchored (some m) rest

/-! ## The sanitizer with checked slice accesses and bounded loops -/

/-- The backward scan of pass 1 with every slice read checked: `none` stands
for an index-out-of-range panic. -/
def hasAssistantChecked (sanitized : List Message) : Nat → Option Bool
  | 0 => some false
  | n + 1 =>
    match sanitized[n]? with
    | none => none
    | some m =>
      if m.role = "tool" then hasAssistantChecked sanitized n
      else some (decide (m.role = "assistant" ∧ m.toolCalls.length > 0))

/-- The loop body of pass 1 with every slice access checked. -/
def pass1StepChecked (sanitized : List Message) (msg : Message) : Option (List Message) :=
  if msg.role = "tool" then
    if sanitized.length = 0 then some sanitized
    else
      match hasAssistantChecked sanitized sanitized.length with
      | none => none
      | some b => if b = false then some sanitized else some (sanitized ++ [msg])
  else if msg.role = "assistant" then
    if msg.toolCalls.length > 0 then
      if sanitized.length = 0 then some sanitized
      else
        match sanitized[sanitized.length - 1]? with
        | none => none
        | some prev =>
          if prev.role ≠ "user" ∧ prev.role ≠ "tool" then some sanitized
          else some (sanitized ++ [msg])
    else some (sanitized ++ [msg])
  else
    if msg.role = "user" ∧ sanitized.length > 0 then
      match sanitized[sanitized.length - 1]? with
      | none => none
      | some last =>
        if last.role = "user" then some (sanitized.set (sanitized.length - 1) msg)
        else some (sanitized ++ [msg])
    else some (sanitized ++ [msg])

/-- Pass 1 with checked slice accesses. -/
def pass1Checked : List Message → List Message → Option (List Message)
  | [], sanitized => some sanitized
  | msg :: rest, sanitized =>
    match pass1StepChecked sanitized msg with
    | none => none
    | some s => pass1Checked rest s

/-- The look-ahead loop with checked reads and a bound `fuel` on the number of
times its condition is evaluated; `none` is a panic or an exhausted bound. -/
def lookAheadChecked : Nat → List Message → Nat → List String → Option (Nat × List String)
  | 0, _, _, _ => none
  | fuel + 1, sanitized, j, foundIDs =>
    if j < sanitized.length then
      match sanitized[j]? with
      | none => none
      | some m =>
        if m.role = "tool" then
          lookAheadChecked fuel sanitized (j + 1)
            (if m.toolCallID ≠ "" then setTrue foundIDs m.toolCallID else foundIDs)
        else some (j, foundIDs)
    else some (j, foundIDs)

/-- The copy loop with checked reads and a bound on its condition checks. -/
def copyRangeChecked : Nat → List Message → Nat → Nat → List Message → Option (List Message)
  | 0, _, _, _, _ => none
  | fuel + 1, sanitized, k, j, validated =>
    if k < j then
      match sanitized[k]? with
      | none => none
      | some m => copyRangeChecked fuel sanitized (k + 1) j (validated ++ [m])
    else some validated

/-- The pass-2 loop with checked reads and a bound on its condition checks. -/
def pass2LoopChecked : Nat → List Message → Nat → List Message → Option (List Message)
  | 0, _, _, _ => none
  | fuel + 1, sanitized, i, validated =>
    if i < sanitized.length then
      match sanitized[i]? with
      | none => none
      | some msg =>
        if msg.role = "assistant" ∧ msg.toolCalls.length > 0 then
          match lookAheadChecked (fuel + 1) sanitized (i + 1) [] with
          | none => none
          | some r =>
            if isComplete (collectExpected msg.toolCalls []) r.2 then
              match copyRangeChecked (fuel + 1) sanitized i r.1 validated with
              | none => none
              | some v => pass2LoopChecked fuel sanitized r.1 v
            else pass2LoopChecked fuel sanitized r.1 validated
        else pass2LoopChecked fuel sanitized (i + 1) (validated ++ [msg])
    else some validated

/-- The sanitizer with checked slice accesses and bounded loops. -/
def sanitizeChecked (fuel : Nat) (history : List Message) : Option (List Message) :=
  if history.length = 0 then some history
  else
    match pass1Checked history [] with
    | none => none
    | some sanitized => pass2LoopChecked fuel sanitized 0 []

/-! ## The message assembler and the message constructors -/

/-- The method `ContextBuilder.BuildMessages`.  The text returned by
`cb.BuildSystemPrompt()` depends on the clock and on files, so it is the
parameter `builtPrompt`. -/
def BuildMessages (builtPrompt : String) (history : List Message)
    (summary currentMessage : String) (media : List String) (channel chatID : String) :
    List Message :=
  let messages : List Message := []
  let systemPrompt := builtPrompt
  let systemPrompt :=
    if channel ≠ "" ∧ chatID ≠ "" then
      systemPrompt ++ "\n\n## Current Session\nChannel: " ++ channel ++ "\nChat ID: " ++ chatID
    else systemPrompt
  let systemPrompt :=
    if summary ≠ "" then
      systemPrompt ++ "\n\n## Summary of Previous Conversation\n\n" ++ summary
    else systemPrompt
  let history := sanitizeHistoryForProvider history
  let messages := messages ++
    [{ role := "system", content := systemPrompt, toolCalls := [], toolCallID := "",
       contentParts := [] }]
  let messages := messages ++ history
  let userMsg : Message :=
    { role := "user", content := currentMessage, toolCalls := [], toolCallID := "",
      contentParts := [] }
  let userMsg : Message :=
    if media.length > 0 then
      { userMsg with
        contentParts :=
          [{ type := "text", text := currentMessage, imageURL := none }] ++
            media.map (fun url => { type := "image_url", text := "", imageURL := some url }) }
    else userMsg
  messages ++ [userMsg]

/-- The method `ContextBuilder.AddAssistantMessage`; a `map[string]interface{}`
is a list of key-value pairs. -/
def AddAssistantMessage (messages : List Message) (content : String)
    (_toolCalls : List (List (String × String))) : List Message :=
  let msg : Message :=
    { role := "assistant", content := content, toolCalls := [], toolCallID := "",
      contentParts := [] }
  messages ++ [msg]

/-! ## Vocabulary of the statements -/

/-- No two adjacent messages are both user-role. -/
def NoAdjacentUsers (s : List Message) : Prop :=
  s.Chain' (fun x y => ¬ (x.role = "user" ∧ y.role = "user"))

/-- Pass 2 as a function of the intermediate sequence: the loop started at
`i := 0` with an empty `validated`. -/
def pass2 (sanitized : List Message) : List Message :=
  pass2Loop sanitized 0 []

/-- The set `E` of the spec: the non-empty ids of the tool calls of `a`. -/
def expectedSet (a : Message) : List String :=
  (a.toolCalls.map (fun tc => tc.id)).filter (fun id => decide (id ≠ ""))

/-- The set `F` of the spec: the non-empty `toolCallID`s of the messages `ts`. -/
def foundSet (ts : List Message) : List String :=
  (ts.map (fun t => t.toolCallID)).filter (fun id => decide (id ≠ ""))

/-! ## Example histories -/

/-- A user turn with the given text. -/
def userMsg (content : String) : Message :=
  { role := "user", content := content, toolCalls := [], toolCallID := "", contentParts := [] }

/-- An assistant turn issuing one tool call per given id. -/
def callMsg (ids : List String) : Message :=
  { role := "assistant", content := "", contentParts := [], toolCallID := "",
    toolCalls := ids.map (fun i => { id := i, name := "exec", arguments := "" }) }

/-- A tool result answering the call with the given id. -/
def toolMsg (id : String) : Message :=
  { role := "tool", content := "done", toolCalls := [], toolCallID := id, contentParts := [] }

/-- Scenario A of the spec: a complete group after a user turn. -/
def scenarioA : List Message := [userMsg "hi", callMsg ["callA"], toolMsg "callA"]

/-- Scenario D of the spec: two consecutive user turns. -/
def scenarioD : List Message := [userMsg "hi", userMsg "hi again"]

/-- Scenario F of the spec: a duplicate tool result for the same call. -/
def scenarioF : List Message :=
  [userMsg "hi", callMsg ["callA"], toolMsg "callA", toolMsg "callA"]

/-- An unanswered tool-call turn between two user turns. -/
def unansweredTurn : List Message := [userMsg "first", callMsg ["callA"], userMsg "second"]

/-- A half-answered tool-call group followed by a new user turn. -/
def halfAnswered : List Message :=
  [userMsg "first", callMsg ["callA", "callB"], toolMsg "callA", userMsg "second"]

/-- A complete group that follows a dropped incomplete one. -/
def afterDroppedGroup : List Message :=
  [userMsg "hi", callMsg ["callA"], toolMsg "other", callMsg ["callB"], toolMsg "callB"]

/-- A turn with one identified and one unidentified call. -/
def mixedCalls : Message := callMsg ["callA", ""]

/-! ## The index loops and their list views -/

theorem take_length_takeWhile {α : Type} (p : α → Bool) (l : List α) :
    l.take (l.takeWhile p).length = l.takeWhile p := by
  induction l with
  | nil => rfl
  | cons a l ih =>
    by_cases h : p a = true
    · simp [List.takeWhile_cons, h, ih]
    · simp [List.takeWhile_cons, h]

theorem drop_length_takeWhile {α : Type} (p : α → Bool) (l : List α) :
    l.drop (l.takeWhile p).length = l.dropWhile p := by
  induction l with
  | nil => rfl
  | cons a l ih =>
    by_cases h : p a = true
    · simp [List.takeWhile_cons, List.dropWhile_cons, h, ih]
    · simp [List.takeWhile_cons, List.dropWhile_cons, h]

theorem takeWhile_drop_tool (s : List Message) (j : Nat) (h : j < s.length)
    (ht : s[j].role = "tool") :
    (s.drop j).takeWhile isTool = s[j] :: (s.drop (j + 1)).takeWhile isTool := by
  have : isTool s[j] = true := by simp [isTool, ht]
  rw [List.drop_eq_getElem_cons h, List.takeWhile_cons, if_pos this]

theorem takeWhile_drop_not_tool (s : List Message) (j : Nat) (h : j < s.length)
    (ht : ¬ s[j].role = "tool") :
    (s.drop j).takeWhile isTool = [] := by
  have : ¬ isTool s[j] = true := by simp [isTool, ht]
  rw [List.drop_eq_getElem_cons h, List.takeWhile_cons, if_neg this]

theorem lookAhead_eq (s : List Message) (j : Nat) (f : List String) :
    lookAhead s j f =
      (j + ((s.drop j).takeWhile isTool).length, foundIn ((s.drop j).takeWhile isTool) f) := by
  induction j, f using lookAhead.induct s with
  | case1 j f h ht ih =>
    simp only [dite_eq_ite] at ih
    rw [lookAhead, dif_pos h, if_pos ht, ih, takeWhile_drop_tool s j h ht]
    simp only [List.length_cons, foundIn, List.foldl_cons, Prod.mk.injEq, and_true]
    omega
  | case2 j f h ht =>
    rw [lookAhead, dif_pos h, if_neg ht, takeWhile_drop_not_tool s j h ht]
    simp [foundIn]
  | case3 j f h =>
    rw [lookAhead, dif_neg h, List.drop_eq_nil_of_le (Nat.le_of_not_lt h)]
    simp [foundIn]

theorem copyRange_eq (s : List Message) (k j : Nat) (hj : j ≤ s.length) (v : List Message) :
    copyRange s k j hj v = v ++ (s.drop k).take (j - k) := by
  induction k, j, hj, v using copyRange.induct s with
  | case1 k j hj v h hk ih =>
    rw [copyRange, dif_pos h]
    simp only []
    rw [ih, List.drop_eq_getElem_cons hk]
    have : j - k = (j - (k + 1)) + 1 := by omega
    rw [this, List.take_succ_cons]
    simp
  | case2 k j hj v h =>
    rw [copyRange, dif_neg h]
    have : j - k = 0 := by omega
    simp [this]

theorem pass2From_of_not_tool (mode : Option Bool) (m : Message) (rest : List Message)
    (h : isTool m = false) : pass2From mode (m :: rest) = pass2From none (m :: rest) := by
  simp [pass2From, h]

theorem pass2From_keep (rest : List Message) :
    pass2From (some true) rest =
      rest.takeWhile isTool ++ pass2From none (rest.dropWhile isTool) := by
  induction rest with
  | nil => simp [pass2From]
  | cons m rest ih =>
    by_cases h : isTool m = true
    · simp [pass2From, h, List.takeWhile_cons, List.dropWhile_cons, ih]
    · have h' : isTool m = false := by simpa using h
      rw [pass2From_of_not_tool _ _ _ h']
      simp [List.takeWhile_cons, List.dropWhile_cons, h']

theorem pass2From_drop (rest : List Message) :
    pass2From (some false) rest = pass2From none (rest.dropWhile isTool) := by
  induction rest with
  | nil => simp [pass2From]
  | cons m rest ih =>
    by_cases h : isTool m = true
    · simp [pass2From, h, List.dropWhile_cons, ih]
    · have h' : isTool m = false := by simpa using h
      rw [pass2From_of_not_tool _ _ _ h']
      simp [List.dropWhile_cons, h']

/-- The index loop of pass 2 appends the list view of the rest of the slice. -/
theorem pass2Loop_eq (s : List Message) (i : Nat) (v : List Message) :
    pass2Loop s i v = v ++ pass2From none (s.drop i) := by
  induction i, v using pass2Loop.induct s with
  | case1 i v h msg hm expectedIDs r hr hc ih =>
    have hturn : isToolCallTurn s[i] = true := by simpa [isToolCallTurn] using hm
    have hnt : ¬ (isTool s[i] = true ∧ (none : Option Bool).isSome = true) := by simp
    have hr1 : r.1 = i + 1 + ((s.drop (i + 1)).takeWhile isTool).length := by
      simp only [r, lookAhead_eq]
    have hr2 : r.2 = foundIn ((s.drop (i + 1)).takeWhile isTool) [] := by
      simp only [r, lookAhead_eq]
    have hgc : groupComplete s[i] ((s.drop (i + 1)).takeWhile isTool) = true := by
      rw [groupComplete, ← hr2]; exact hc
    rw [pass2Loop, dif_pos h]
    simp only []
    rw [if_pos hm, if_pos hc, ih, copyRange_eq, List.drop_eq_getElem_cons h]
    rw [pass2From, if_neg hnt, if_pos hturn, if_pos hgc, pass2From_keep]
    have e1 : r.1 - i = ((s.drop (i + 1)).takeWhile isTool).length + 1 := by omega
    have e2 : s.drop (i + 1 + ((s.drop (i + 1)).takeWhile isTool).length) =
        (s.drop (i + 1)).dropWhile isTool := by
      rw [← drop_length_takeWhile, List.drop_drop, Nat.add_comm]
    rw [e1, List.take_succ_cons, take_length_takeWhile, hr1, e2]
    simp
  | case2 i v h msg hm expectedIDs r hr hc ih =>
    have hturn : isToolCallTurn s[i] = true := by simpa [isToolCallTurn] using hm
    have hnt : ¬ (isTool s[i] = true ∧ (none : Option Bool).isSome = true) := by simp
    have hr1 : r.1 = i + 1 + ((s.drop (i + 1)).takeWhile isTool).length := by
      simp only [r, lookAhead_eq]
    have hr2 : r.2 = foundIn ((s.drop (i + 1)).takeWhile isTool) [] := by
      simp only [r, lookAhead_eq]
    have hgc : ¬ groupComplete s[i] ((s.drop (i + 1)).takeWhile isTool) = true := by
      rw [groupComplete, ← hr2]; exact hc
    rw [pass2Loop, dif_pos h]
    simp only []
    rw [if_pos hm, if_neg hc, ih, List.drop_eq_getElem_cons h]
    rw [pass2From, if_neg hnt, if_pos hturn, if_neg hgc, pass2From_drop]
    have e2 : s.drop (i + 1 + ((s.drop (i + 1)).takeWhile isTool).length) =
        (s.drop (i + 1)).dropWhile isTool := by
      rw [← drop_length_takeWhile, List.drop_drop, Nat.add_comm]
    rw [hr1, e2]
  | case3 i v h msg hm ih =>
    have hturn : ¬ isToolCallTurn s[i] = true := by simpa [isToolCallTurn] using hm
    have hnt : ¬ (isTool s[i] = true ∧ (none : Option Bool).isSome = true) := by simp
    rw [pass2Loop, dif_pos h]
    simp only []
    rw [if_neg hm, ih, List.drop_eq_getElem_cons h]
    rw [pass2From, if_neg hnt, if_neg hturn]
    simp
  | case4 i v h =>
    rw [pass2Loop, dif_neg h, List.drop_eq_nil_of_le (Nat.le_of_not_lt h)]
    simp [pass2From]

theorem scanBack_concat (pre : List Message) (m : Message) :
    scanBack (pre ++ [m]) = if isTool m = true then scanBack pre else some m := by
  simp only [scanBack, List.reverse_append, List.reverse_singleton, List.singleton_append,
    List.dropWhile_cons]
  split <;> simp

theorem grounds_nil : grounds [] = false := rfl

theorem grounds_concat (pre : List Message) (m : Message) :
    grounds (pre ++ [m]) = if isTool m = true then grounds pre else isToolCallTurn m := by
  by_cases h : isTool m = true
  · simp [grounds, scanBack_concat, h]
  · simp [grounds, scanBack_concat, h]

theorem hasAssistant_eq (s : List Message) (n : Nat) (h : n ≤ s.length) :
    hasAssistant s n h = grounds (s.take n) := by
  induction n with
  | zero => simp [hasAssistant, grounds_nil]
  | succ n ih =>
    have hn : n < s.length := h
    have ht : s.take (n + 1) = s.take n ++ [s[n]] := by
      rw [List.take_succ, List.getElem?_eq_getElem hn]; rfl
    rw [ht, grounds_concat, hasAssistant]
    by_cases hr : s[n].role = "tool"
    · simp [hr, isTool, ih]
    · simp [hr, isTool, isToolCallTurn]

/-- The loop body of pass 1 is its list view. -/
theorem pass1Step_eq (acc : List Message) (msg : Message) :
    pass1Step acc msg = pass1View acc msg := by
  rcases List.eq_nil_or_concat acc with rfl | ⟨init, last, rfl⟩
  · unfold pass1Step pass1View
    by_cases h1 : msg.role = "tool"
    · simp [h1, isTool, grounds_nil]
    · by_cases h2 : msg.role = "assistant"
      · by_cases h3 : msg.toolCalls.length > 0
        · simp [h1, h2, isTool, isToolCallTurn, h3]
        · simp [h1, h2, isTool, isToolCallTurn, h3]
      · simp [h1, h2, isTool, isToolCallTurn]
  · rw [List.concat_eq_append]
    have hlast : (init ++ [last]).getLast? = some last := by simp
    have hdrop : (init ++ [last]).dropLast = init := by simp
    unfold pass1Step pass1View
    rw [hasAssistant_eq, List.take_length, hlast, hdrop]
    by_cases h1 : msg.role = "tool"
    · cases hg : grounds (init ++ [last]) <;> simp [h1, isTool, hg]
    · by_cases h2 : msg.role = "assistant"
      · by_cases h3 : msg.toolCalls.length > 0
        · simp only [h1, h2, isTool, isToolCallTurn, h3]
          by_cases hu : last.role = "user" <;> by_cases ht : last.role = "tool" <;>
            simp [hu, ht]
        · simp [h1, h2, isTool, isToolCallTurn, h3]
      · simp [h1, h2, isTool, isToolCallTurn]

theorem pass1_eq (h : List Message) : pass1 h = h.foldl pass1View [] := by
  have : pass1Step = pass1View := by
    funext acc msg; exact pass1Step_eq acc msg
  rw [pass1, this]

/-- The sanitizer is the list view of pass 2 after pass 1. -/
theorem sanitize_eq (h : List Message) :
    sanitizeHistoryForProvider h = pass2From none (pass1 h) := by
  unfold sanitizeHistoryForProvider
  split
  · rename_i h0
    have : h = [] := List.length_eq_zero.mp h0
    subst this
    rfl
  · rw [pass2Loop_eq]; simp

theorem eq_dropLast_concat {acc : List Message} {prev : Message}
    (h : acc.getLast? = some prev) : acc = acc.dropLast ++ [prev] :=
  (List.dropLast_append_getLast? prev (by simp [h])).symm

/-! ## The completeness check -/

theorem mem_setTrue (m : List String) (k x : String) : x ∈ setTrue m k ↔ x ∈ m ∨ x = k := by
  unfold setTrue
  split_ifs with h
  · constructor
    · exact Or.inl
    · rintro (h' | rfl)
      · exact h'
      · exact h
  · simp

theorem mem_collectExpected (tcs : List ToolCall) (m : List String) (x : String) :
    x ∈ collectExpected tcs m ↔ x ∈ m ∨ (x ≠ "" ∧ ∃ tc ∈ tcs, tc.id = x) := by
  induction tcs generalizing m with
  | nil => simp [collectExpected]
  | cons tc tcs ih =>
    have hstep : collectExpected (tc :: tcs) m =
        collectExpected tcs (if tc.id ≠ "" then setTrue m tc.id else m) := rfl
    rw [hstep, ih]
    by_cases h : tc.id = ""
    · simp only [h, ne_eq, not_true_eq_false, if_false, List.mem_cons, exists_eq_or_imp]
      constructor
      · rintro (h1 | ⟨h1, h2⟩)
        · exact Or.inl h1
        · exact Or.inr ⟨h1, Or.inr h2⟩
      · rintro (h1 | ⟨h1, h2 | h2⟩)
        · exact Or.inl h1
        · exact absurd h2.symm h1
        · exact Or.inr ⟨h1, h2⟩
    · simp only [ne_eq, h, not_false_eq_true, if_true, mem_setTrue, List.mem_cons,
        exists_eq_or_imp]
      constructor
      · rintro ((h1 | h1) | ⟨h1, h2⟩)
        · exact Or.inl h1
        · subst h1; exact Or.inr ⟨h, Or.inl rfl⟩
        · exact Or.inr ⟨h1, Or.inr h2⟩
      · rintro (h1 | ⟨h1, h2 | h2⟩)
        · exact Or.inl (Or.inl h1)
        · exact Or.inl (Or.inr h2.symm)
        · exact Or.inr ⟨h1, h2⟩

theorem mem_foundIn (run : List Message) (f : List String) (x : String) :
    x ∈ foundIn run f ↔ x ∈ f ∨ (x ≠ "" ∧ ∃ t ∈ run, t.toolCallID = x) := by
  induction run generalizing f with
  | nil => simp [foundIn]
  | cons t run ih =>
    have hstep : foundIn (t :: run) f =
        foundIn run (if t.toolCallID ≠ "" then setTrue f t.toolCallID else f) := rfl
    rw [hstep, ih]
    by_cases h : t.toolCallID = ""
    · simp only [h, ne_eq, not_true_eq_false, if_false, List.mem_cons, exists_eq_or_imp]
      constructor
      · rintro (h1 | ⟨h1, h2⟩)
        · exact Or.inl h1
        · exact Or.inr ⟨h1, Or.inr h2⟩
      · rintro (h1 | ⟨h1, h2 | h2⟩)
        · exact Or.inl h1
        · exact absurd h2.symm h1
        · exact Or.inr ⟨h1, h2⟩
    · simp only [ne_eq, h, not_false_eq_true, if_true, mem_setTrue, List.mem_cons,
        exists_eq_or_imp]
      constructor
      · rintro ((h1 | h1) | ⟨h1, h2⟩)
        · exact Or.inl h1
        · subst h1; exact Or.inr ⟨h, Or.inl rfl⟩
        · exact Or.inr ⟨h1, Or.inr h2⟩
      · rintro (h1 | ⟨h1, h2 | h2⟩)
        · exact Or.inl (Or.inl h1)
        · exact Or.inl (Or.inr h2.symm)
        · exact Or.inr ⟨h1, h2⟩

/-- The completeness check holds exactly when the turn has a call with a
non-empty id and each such id is the `toolCallID` of a message of the run. -/
theorem groupComplete_iff (a : Message) (run : List Message) :
    groupComplete a run = true ↔
      (∃ tc ∈ a.toolCalls, tc.id ≠ "") ∧
        ∀ tc ∈ a.toolCalls, tc.id ≠ "" → ∃ t ∈ run, t.toolCallID = tc.id := by
  simp only [groupComplete, isComplete, Bool.and_eq_true, decide_eq_true_eq, List.all_eq_true,
    mem_collectExpected, mem_foundIn, List.not_mem_nil, false_or, List.length_pos_iff_exists_mem]
  constructor
  · rintro ⟨⟨x, hx, tc, htc, rfl⟩, hall⟩
    refine ⟨⟨tc, htc, hx⟩, ?_⟩
    intro tc' htc' hne
    exact (hall tc'.id ⟨hne, tc', htc', rfl⟩).2
  · rintro ⟨⟨tc, htc, hne⟩, hall⟩
    refine ⟨⟨tc.id, hne, tc, htc, rfl⟩, ?_⟩
    rintro x ⟨hx, tc', htc', rfl⟩
    exact ⟨hx, hall tc' htc' hx⟩

/-! ## Deletions only -/

theorem pass2From_sublist (mode : Option Bool) (s : List Message) :
    (pass2From mode s).Sublist s := by
  induction s generalizing mode with
  | nil => simp [pass2From]
  | cons m rest ih =>
    rw [pass2From]
    split_ifs
    · exact (ih _).cons₂ m
    · exact (ih _).cons m
    · exact (ih _).cons₂ m
    · exact (ih _).cons m
    · exact (ih _).cons₂ m

theorem pass1View_sublist (acc pre : List Message) (m : Message) (h : acc.Sublist pre) :
    (pass1View acc m).Sublist (pre ++ [m]) := by
  have happ : (acc ++ [m]).Sublist (pre ++ [m]) := h.append (List.Sublist.refl _)
  have hkeep : acc.Sublist (pre ++ [m]) := h.trans (List.sublist_append_left _ _)
  unfold pass1View
  split_ifs
  · exact happ
  · exact hkeep
  · split
    · split_ifs
      · exact happ
      · exact hkeep
    · exact hkeep
  · split
    · split_ifs
      · exact ((List.dropLast_sublist acc).trans h).append (List.Sublist.refl _)
      · exact happ
    · exact happ
  · exact happ

theorem foldl_pass1View_sublist (rest acc pre : List Message) (h : acc.Sublist pre) :
    (rest.foldl pass1View acc).Sublist (pre ++ rest) := by
  induction rest generalizing acc pre with
  | nil => simpa using h
  | cons m rest ih =>
    have := ih (pass1View acc m) (pre ++ [m]) (pass1View_sublist acc pre m h)
    simpa using this

theorem sanitize_sublist (h : List Message) : (sanitizeHistoryForProvider h).Sublist h := by
  rw [sanitize_eq, pass1_eq]
  refine (pass2From_sublist none _).trans ?_
  simpa using foldl_pass1View_sublist h [] [] (List.Sublist.refl _)

/-! ## Pass-through messages -/

theorem isPassThrough_of_tool {m : Message} (h : isTool m = true) : isPassThrough m = false := by
  simp only [isTool, decide_eq_true_eq] at h
  simp [isPassThrough, h]

theorem isPassThrough_of_turn {m : Message} (h : isToolCallTurn m = true) :
    isPassThrough m = false := by
  simp only [isToolCallTurn, decide_eq_true_eq] at h
  simp [isPassThrough, h.1, h.2]

theorem isPassThrough_of_user {m : Message} (h : m.role = "user") : isPassThrough m = false := by
  simp [isPassThrough, h]

theorem pass2From_filter (mode : Option Bool) (s : List Message) :
    (pass2From mode s).filter isPassThrough = s.filter isPassThrough := by
  induction s generalizing mode with
  | nil => simp [pass2From]
  | cons m rest ih =>
    rw [pass2From]
    split_ifs with h1 h2 h3 h4
    · simp [List.filter_cons, ih]
    · simp [List.filter_cons, ih, isPassThrough_of_tool h1.1]
    · simp [List.filter_cons, ih]
    · simp [List.filter_cons, ih, isPassThrough_of_turn h3]
    · simp [List.filter_cons, ih]

theorem pass1View_filter (acc : List Message) (m : Message) :
    (pass1View acc m).filter isPassThrough =
      acc.filter isPassThrough ++ [m].filter isPassThrough := by
  unfold pass1View
  split_ifs with h1 h2 h3 h4
  · simp
  · simp [List.filter_cons, isPassThrough_of_tool h1]
  · split
    · split_ifs
      · simp
      · simp [List.filter_cons, isPassThrough_of_turn h3]
    · simp [List.filter_cons, isPassThrough_of_turn h3]
  · split
    · rename_i prev hp
      split_ifs with h5
      · have e := eq_dropLast_concat hp
        conv_rhs => rw [e]
        simp [List.filter_cons, isPassThrough_of_user h5]
      · simp
    · simp
  · simp

theorem foldl_pass1View_filter (rest acc : List Message) :
    (rest.foldl pass1View acc).filter isPassThrough =
      acc.filter isPassThrough ++ rest.filter isPassThrough := by
  induction rest generalizing acc with
  | nil => simp
  | cons m rest ih =>
    rw [List.foldl_cons, ih, pass1View_filter]
    simp [List.filter_cons]
    split <;> simp

theorem isTool_iff (m : Message) : isTool m = true ↔ m.role = "tool" := by
  simp [isTool]

theorem isToolCallTurn_iff (m : Message) :
    isToolCallTurn m = true ↔ m.role = "assistant" ∧ m.toolCalls ≠ [] := by
  simp [isToolCallTurn, List.length_pos]

theorem not_turn_of_tool {m : Message} (h : isTool m = true) : isToolCallTurn m = false := by
  rw [isTool_iff] at h
  simp [isToolCallTurn, h]

/-! ## Kept tool-call turns are complete -/

theorem pass2From_turn_complete (mode : Option Bool) (s : List Message) :
    ∀ pre a post, pass2From mode s = pre ++ a :: post → isToolCallTurn a = true →
      (∃ tc ∈ a.toolCalls, tc.id ≠ "") ∧
        ∀ tc ∈ a.toolCalls, tc.id ≠ "" → ∃ t ∈ post.takeWhile isTool, t.toolCallID = tc.id := by
  induction s generalizing mode with
  | nil => intro pre a post h; simp [pass2From] at h
  | cons m rest ih =>
    intro pre a post h ha
    rw [pass2From] at h
    split_ifs at h with h1 h2 h3 h4
    · rcases pre with _ | ⟨p, pre⟩
      · simp only [List.nil_append, List.cons.injEq] at h
        rw [← h.1, not_turn_of_tool h1.1] at ha
        exact absurd ha (by simp)
      · simp only [List.cons_append, List.cons.injEq] at h
        exact ih _ pre a post h.2 ha
    · exact ih _ pre a post h ha
    · rcases pre with _ | ⟨p, pre⟩
      · simp only [List.nil_append, List.cons.injEq] at h
        obtain ⟨rfl, hpost⟩ := h
        rw [pass2From_keep] at hpost
        obtain ⟨hex, hall⟩ := (groupComplete_iff m _).mp h4
        refine ⟨hex, fun tc htc hne => ?_⟩
        obtain ⟨t, ht, hid⟩ := hall tc htc hne
        refine ⟨t, ?_, hid⟩
        rw [← hpost, List.takeWhile_append_of_pos (fun x hx => (List.mem_takeWhile_imp hx))]
        exact List.mem_append_left _ ht
      · simp only [List.cons_append, List.cons.injEq] at h
        exact ih _ pre a post h.2 ha
    · exact ih _ pre a post h ha
    · rcases pre with _ | ⟨p, pre⟩
      · simp only [List.nil_append, List.cons.injEq] at h
        rw [← h.1] at ha
        exact absurd ha h3
      · simp only [List.cons_append, List.cons.injEq] at h
        exact ih _ pre a post h.2 ha

/-! ## Tool messages stay grounded -/

theorem trail_concat (b : Bool) (acc : List Message) (m : Message) :
    trail b (acc ++ [m]) = if isTool m = true then trail b acc else isToolCallTurn m := by
  induction acc generalizing b with
  | nil => simp [trail]
  | cons x acc ih => simp [trail, ih]

theorem trail_false_eq_grounds (acc : List Message) : trail false acc = grounds acc := by
  induction acc using List.reverseRecOn with
  | nil => rfl
  | append_singleton acc m ih => rw [trail_concat, grounds_concat, ih]

theorem grounded_append (b : Bool) (pre s : List Message) :
    grounded b (pre ++ s) = (grounded b pre && grounded (trail b pre) s) := by
  induction pre generalizing b with
  | nil => simp [grounded, trail]
  | cons x pre ih =>
    by_cases hx : isTool x = true
    · simp [grounded, trail, hx, ih, Bool.and_assoc]
    · simp [grounded, trail, hx, ih]

theorem grounded_mono (s : List Message) (h : grounded false s = true) :
    grounded true s = true := by
  cases s with
  | nil => rfl
  | cons m rest =>
    by_cases hm : isTool m = true
    · simp [grounded, hm] at h
    · simpa [grounded, hm] using h

theorem grounds_iff (pre : List Message) :
    grounds pre = true ↔
      ∃ a, scanBack pre = some a ∧ a.role = "assistant" ∧ a.toolCalls ≠ [] := by
  unfold grounds
  cases h : scanBack pre with
  | none => simp
  | some a => simp [isToolCallTurn_iff]

theorem pass1View_grounded (acc : List Message) (m : Message)
    (h : grounded false acc = true) : grounded false (pass1View acc m) = true := by
  have hnt : isTool m ≠ true → grounded false (acc ++ [m]) = true := by
    intro hm
    rw [grounded_append, h]
    simp [grounded, hm]
  unfold pass1View
  split_ifs with h1 h2 h3 h4
  · rw [grounded_append, h, trail_false_eq_grounds, h2]
    simp [grounded, h1]
  · exact h
  · split
    · split_ifs
      · exact hnt h1
      · exact h
    · exact h
  · split
    · rename_i prev hp
      split_ifs with h5
      · have e := eq_dropLast_concat hp
        rw [e, grounded_append] at h
        simp only [Bool.and_eq_true] at h
        rw [grounded_append, h.1]
        simp [grounded, h1]
      · exact hnt h1
    · exact hnt h1
  · exact hnt h1

theorem foldl_pass1View_grounded (rest acc : List Message)
    (h : grounded false acc = true) : grounded false (rest.foldl pass1View acc) = true := by
  induction rest generalizing acc with
  | nil => exact h
  | cons m rest ih => exact ih _ (pass1View_grounded acc m h)

theorem pass2From_grounded (mode : Option Bool) (s : List Message) (bIn bOut : Bool)
    (h : grounded bIn s = true) (hkeep : mode = some true → bOut = true)
    (htop : mode = none → bIn = true → bOut = true) :
    grounded bOut (pass2From mode s) = true := by
  induction s generalizing mode bIn bOut with
  | nil => simp [pass2From, grounded]
  | cons m rest ih =>
    rw [pass2From]
    split_ifs with h1 h2 h3 h4
    · simp only [grounded, h1.1, if_true, Bool.and_eq_true] at h
      simp only [grounded, h1.1, if_true, Bool.and_eq_true]
      exact ⟨hkeep h2, ih mode bIn bOut h.2 hkeep (by simp [h2])⟩
    · simp only [grounded, h1.1, if_true, Bool.and_eq_true] at h
      refine ih mode bIn bOut h.2 (fun e => absurd e h2) ?_
      intro e
      rw [e] at h1
      simp at h1
    · by_cases ht : isTool m = true
      · rw [not_turn_of_tool ht] at h3
        exact absurd h3 (by simp)
      · simp only [grounded, ht, if_false, h3] at h
        simp only [grounded, ht, if_false, h3]
        exact ih (some true) true true h (fun _ => rfl) (fun _ _ => rfl)
    · by_cases ht : isTool m = true
      · rw [not_turn_of_tool ht] at h3
        exact absurd h3 (by simp)
      · simp only [grounded, ht, if_false, h3] at h
        exact ih (some false) true bOut h (by simp) (by simp)
    · have h3' : isToolCallTurn m = false := by simpa using h3
      by_cases ht : isTool m = true
      · have hm : mode = none := by
          cases mode with
          | none => rfl
          | some b => exact absurd ⟨ht, rfl⟩ h1
        simp only [grounded, ht, if_true, Bool.and_eq_true] at h
        simp only [grounded, ht, if_true, Bool.and_eq_true]
        exact ⟨htop hm h.1, ih none bIn bOut h.2 (by simp) (fun _ => htop hm)⟩
      · simp only [grounded, ht, if_false, h3'] at h
        simp only [grounded, ht, if_false, h3']
        exact ih none false false h (by simp) (by simp)

theorem sanitize_grounded (h : List Message) :
    grounded false (sanitizeHistoryForProvider h) = true := by
  rw [sanitize_eq, pass1_eq]
  exact pass2From_grounded none _ false false
    (foldl_pass1View_grounded h [] rfl) (by simp) (by simp)

theorem grounded_split (pre : List Message) (t : Message) (post : List Message)
    (h : grounded false (pre ++ t :: post) = true) (ht : t.role = "tool") :
    ∃ a, scanBack pre = some a ∧ a.role = "assistant" ∧ a.toolCalls ≠ [] := by
  rw [grounded_append] at h
  simp only [Bool.and_eq_true] at h
  have ht' : isTool t = true := (isTool_iff t).mpr ht
  have h2 := h.2
  simp only [grounded, ht', if_true, Bool.and_eq_true] at h2
  rw [← grounds_iff, ← trail_false_eq_grounds]
  exact h2.1

/-! ## Valid histories -/

theorem pass2From_fixed (mode : Option Bool) (s : List Message) (hmode : mode ≠ some false)
    (hd : ∀ pre a post, s = pre ++ a :: post → isToolCallTurn a = true →
      groupComplete a (post.takeWhile isTool) = true) :
    pass2From mode s = s := by
  induction s generalizing mode with
  | nil => simp [pass2From]
  | cons m rest ih =>
    have hd' : ∀ pre a post, rest = pre ++ a :: post → isToolCallTurn a = true →
        groupComplete a (post.takeWhile isTool) = true := by
      intro pre a post e ha
      exact hd (m :: pre) a post (by simp [e]) ha
    rw [pass2From]
    split_ifs with h1 h2 h3 h4
    · rw [ih mode hmode hd']
    · exfalso
      cases mode with
      | none => simp at h1
      | some b =>
        cases b with
        | true => exact h2 rfl
        | false => exact hmode rfl
    · rw [ih (some true) (by simp) hd']
    · exact absurd (hd [] m rest rfl h3) h4
    · rw [ih none (by simp) hd']

theorem foldl_pass1View_fixed (h : List Message)
    (ha : ∀ pre x y post, h = pre ++ x :: y :: post → ¬ (x.role = "user" ∧ y.role = "user"))
    (hb : ∀ pre t post, h = pre ++ t :: post → t.role = "tool" →
      ∃ a, scanBack pre = some a ∧ a.role = "assistant" ∧ a.toolCalls ≠ [])
    (hc : ∀ pre a post, h = pre ++ a :: post → a.role = "assistant" → a.toolCalls ≠ [] →
      ∃ p, pre.getLast? = some p ∧ (p.role = "user" ∨ p.role = "tool")) :
    ∀ rest acc, h = acc ++ rest → rest.foldl pass1View acc = h := by
  intro rest
  induction rest with
  | nil => intro acc e; simp [e]
  | cons m rest ih =>
    intro acc e
    have hstep : pass1View acc m = acc ++ [m] := by
      unfold pass1View
      split_ifs with h1 h2 h3 h4
      · rfl
      · exact absurd ((grounds_iff acc).mpr (hb acc m rest e ((isTool_iff m).mp h1))) h2
      · obtain ⟨hr, htc⟩ := (isToolCallTurn_iff m).mp h3
        obtain ⟨p, hp, hrole⟩ := hc acc m rest e hr htc
        simp [hp, hrole]
      · split
        · rename_i prev hp
          split_ifs with h5
          · exfalso
            have e' := eq_dropLast_concat hp
            refine ha acc.dropLast prev m rest ?_ ⟨h5, h4⟩
            rw [e]
            conv_lhs => rw [e']
            simp
          · rfl
        · rfl
      · rfl
    rw [List.foldl_cons, hstep]
    exact ih (acc ++ [m]) (by simp [e])

theorem foldl_pass1View_users (rest : List Message) (m : Message) (hm : m.role = "user")
    (hrest : ∀ x ∈ rest, x.role = "user") :
    rest.foldl pass1View [m] = [(m :: rest).getLast (List.cons_ne_nil m rest)] := by
  induction rest generalizing m with
  | nil => rfl
  | cons x rest ih =>
    have hx : x.role = "user" := hrest x (List.mem_cons_self x rest)
    have hstep : pass1View [m] x = [x] := by
      simp [pass1View, isTool, isToolCallTurn, hx, hm]
    rw [List.foldl_cons, hstep, ih x hx (fun y hy => hrest y (List.mem_cons_of_mem x hy))]
    simp [List.getLast_cons]

/-! ## Tool-call turns stay anchored -/

theorem anchored_append (prev : Option Message) (pre s : List Message) :
    anchored prev (pre ++ s) = (anchored prev pre && anchored (pre.getLast?.or prev) s) := by
  induction pre generalizing prev with
  | nil => simp [anchored]
  | cons x pre ih =>
    have hl : (x :: pre).getLast?.or prev = pre.getLast?.or (some x) := by
      cases pre with
      | nil => simp
      | cons y pre =>
        rw [List.getLast?_cons_cons, List.getLast?_eq_getLast _ (List.cons_ne_nil y pre)]
        rfl
    rw [hl, List.cons_append, anchored, anchored, ih, Bool.and_assoc]

theorem pass1View_anchored (acc : List Message) (m : Message)
    (h : anchored none acc = true) : anchored none (pass1View acc m) = true := by
  have hnt : isToolCallTurn m ≠ true → anchored none (acc ++ [m]) = true := by
    intro hm
    rw [anchored_append, h]
    simp [anchored, hm]
  unfold pass1View
  split_ifs with h1 h2 h3 h4
  · exact hnt (by rw [not_turn_of_tool h1]; simp)
  · exact h
  · split
    · rename_i prev hp
      split_ifs with h5
      · rw [anchored_append, h, hp]
        simp [anchored, prevOK, h5]
      · exact h
    · exact h
  · split
    · rename_i prev hp
      split_ifs with h5
      · have e := eq_dropLast_concat hp
        rw [e, anchored_append] at h
        simp only [Bool.and_eq_true] at h
        rw [anchored_append, h.1]
        simp [anchored, h3]
      · exact hnt h3
    · exact hnt h3
  · exact hnt h3

theorem foldl_pass1View_anchored (rest acc : List Message)
    (h : anchored none acc = true) : anchored none (rest.foldl pass1View acc) = true := by
  induction rest generalizing acc with
  | nil => exact h
  | cons m rest ih => exact ih _ (pass1View_anchored acc m h)

theorem pass2From_anchored (mode : Option Bool) (s : List Message)
    (prevIn prevOut : Option Message) (h : anchored prevIn s = true)
    (hsame : mode ≠ some false → prevOut = prevIn)
    (hdrop : mode = some false → prevOK prevOut = true) :
    anchored prevOut (pass2From mode s) = true := by
  induction s generalizing mode prevIn prevOut with
  | nil => simp [pass2From, anchored]
  | cons m rest ih =>
    simp only [anchored, Bool.and_eq_true] at h
    obtain ⟨hhead, htail⟩ := h
    rw [pass2From]
    split_ifs with h1 h2 h3 h4
    · simp only [anchored, not_turn_of_tool h1.1, Bool.and_eq_true]
      exact ⟨by simp, ih mode (some m) (some m) htail (fun _ => rfl) (by simp [h2])⟩
    · have hm : mode = some false := by
        cases mode with
        | none => simp at h1
        | some b =>
          cases b with
          | true => exact absurd rfl h2
          | false => rfl
      exact ih mode (some m) prevOut htail (fun hne => absurd hm hne) (fun _ => hdrop hm)
    · have hok : prevOK prevOut = true := by
        by_cases hm : mode = some false
        · exact hdrop hm
        · rw [hsame hm]; simpa [h3] using hhead
      simp only [anchored, h3, if_true, hok, Bool.true_and]
      exact ih (some true) (some m) (some m) htail (fun _ => rfl) (by simp)
    · have hok : prevOK prevOut = true := by
        by_cases hm : mode = some false
        · exact hdrop hm
        · rw [hsame hm]; simpa [h3] using hhead
      exact ih (some false) (some m) prevOut htail (by simp) (fun _ => hok)
    · simp only [anchored, h3, Bool.and_eq_true]
      exact ⟨by simp, ih none (some m) (some m) htail (fun _ => rfl) (by simp)⟩

theorem sanitize_anchored (h : List Message) :
    anchored none (sanitizeHistoryForProvider h) = true := by
  rw [sanitize_eq, pass1_eq]
  exact pass2From_anchored none _ none none
    (foldl_pass1View_anchored h [] rfl) (fun _ => rfl) (by simp)

theorem anchored_split (pre : List Message) (a : Message) (post : List Message)
    (h : anchored none (pre ++ a :: post) = true) (ha : isToolCallTurn a = true) :
    ∃ p, pre.getLast? = some p ∧ (p.role = "user" ∨ p.role = "tool") := by
  rw [anchored_append] at h
  simp only [Bool.and_eq_true, anchored, ha, if_true] at h
  have hok := h.2.1
  cases hl : pre.getLast? with
  | none => rw [hl] at hok; simp [prevOK] at hok
  | some p =>
    rw [hl] at hok
    exact ⟨p, rfl, by simpa [prevOK] using hok⟩

/-! ## Idempotence away from adjacent user messages -/

/-- The sanitizer fixes its own output whenever that output has no two
adjacent user messages: the output always satisfies the other conditions of a
valid history. -/
theorem sanitize_twice_of_no_adjacent_users (h : List Message)
    (hno : ∀ pre x y post, sanitizeHistoryForProvider h = pre ++ x :: y :: post →
      ¬ (x.role = "user" ∧ y.role = "user")) :
    sanitizeHistoryForProvider (sanitizeHistoryForProvider h) =
      sanitizeHistoryForProvider h := by
  have hg := sanitize_grounded h
  have ha := sanitize_anchored h
  have hcomplete : ∀ pre a post, sanitizeHistoryForProvider h = pre ++ a :: post →
      isToolCallTurn a = true → groupComplete a (post.takeWhile isTool) = true := by
    intro pre a post e hturn
    rw [sanitize_eq] at e
    exact (groupComplete_iff a _).mpr (pass2From_turn_complete none _ pre a post e hturn)
  generalize sanitizeHistoryForProvider h = out at hno hg ha hcomplete
  rw [sanitize_eq, pass1_eq, foldl_pass1View_fixed out hno ?_ ?_ out [] rfl]
  · exact pass2From_fixed none out (by simp) hcomplete
  · intro pre t post e ht
    rw [e] at hg
    exact grounded_split pre t post hg ht
  · intro pre a post e hr htc
    rw [e] at ha
    exact anchored_split pre a post ha ((isToolCallTurn_iff a).mpr ⟨hr, htc⟩)

/-! ## No panic and no exhausted bound -/

theorem hasAssistantChecked_eq (s : List Message) (n : Nat) (h : n ≤ s.length) :
    hasAssistantChecked s n = some (hasAssistant s n h) := by
  induction n with
  | zero => rfl
  | succ n ih =>
    have hn : n < s.length := h
    rw [hasAssistantChecked, hasAssistant, List.getElem?_eq_getElem hn]
    by_cases hr : s[n].role = "tool"
    · simp only [hr, if_true]
      exact ih (Nat.le_of_lt hn)
    · simp only [hr, if_false]

theorem pass1StepChecked_eq (s : List Message) (msg : Message) :
    pass1StepChecked s msg = some (pass1Step s msg) := by
  unfold pass1StepChecked pass1Step
  rw [hasAssistantChecked_eq s s.length (Nat.le_refl _)]
  by_cases h0 : s.length = 0
  · simp [h0]
    split_ifs <;> simp_all
  · have hlt : s.length - 1 < s.length := by omega
    have hpos : s.length > 0 := by omega
    rw [List.getElem?_eq_getElem hlt]
    simp only [h0, hpos, if_false, dite_false, dite_true, and_true]
    split_ifs <;> rfl

theorem pass1Checked_eq (rest acc : List Message) :
    pass1Checked rest acc = some (rest.foldl pass1Step acc) := by
  induction rest generalizing acc with
  | nil => rfl
  | cons m rest ih => rw [pass1Checked, pass1StepChecked_eq, List.foldl_cons]; exact ih _

theorem lookAheadChecked_eq (fuel : Nat) (s : List Message) (j : Nat) (f : List String)
    (hf : s.length - j < fuel) :
    lookAheadChecked fuel s j f = some (lookAhead s j f) := by
  induction fuel generalizing j f with
  | zero => omega
  | succ fuel ih =>
    rw [lookAheadChecked, lookAhead]
    by_cases h : j < s.length
    · rw [if_pos h, dif_pos h, List.getElem?_eq_getElem h]
      by_cases ht : s[j].role = "tool"
      · simp only [ht, if_true]
        exact ih (j + 1) _ (by omega)
      · simp only [ht, if_false]
    · rw [if_neg h, dif_neg h]

theorem copyRangeChecked_eq (fuel : Nat) (s : List Message) (k j : Nat)
    (hj : j ≤ s.length) (v : List Message) (hf : j - k < fuel) :
    copyRangeChecked fuel s k j v = some (copyRange s k j hj v) := by
  induction fuel generalizing k v with
  | zero => omega
  | succ fuel ih =>
    rw [copyRangeChecked, copyRange]
    by_cases h : k < j
    · have hk : k < s.length := Nat.lt_of_lt_of_le h hj
      rw [if_pos h, dif_pos h, List.getElem?_eq_getElem hk]
      exact ih (k + 1) _ (by omega)
    · rw [if_neg h, dif_neg h]

theorem pass2LoopChecked_eq (fuel : Nat) (s : List Message) (i : Nat) (v : List Message)
    (hf : s.length - i < fuel) :
    pass2LoopChecked fuel s i v = some (pass2Loop s i v) := by
  induction fuel generalizing i v with
  | zero => omega
  | succ fuel ih =>
    rw [pass2LoopChecked, pass2Loop]
    by_cases h : i < s.length
    · have hge := lookAhead_ge s (i + 1) []
      have hle := lookAhead_le s (i + 1) [] h
      rw [if_pos h, dif_pos h, List.getElem?_eq_getElem h]
      simp only []
      by_cases hm : s[i].role = "assistant" ∧ s[i].toolCalls.length > 0
      · rw [if_pos hm, if_pos hm, lookAheadChecked_eq (fuel + 1) s (i + 1) [] (by omega)]
        simp only []
        by_cases hc : isComplete (collectExpected s[i].toolCalls []) (lookAhead s (i + 1) []).2 = true
        · rw [if_pos hc, if_pos hc,
            copyRangeChecked_eq (fuel + 1) s i _ hle v (by omega)]
          exact ih _ _ (by omega)
        · rw [if_neg hc, if_neg hc]
          exact ih _ _ (by omega)
      · rw [if_neg hm, if_neg hm]
        exact ih _ _ (by omega)
    · rw [if_neg h, dif_neg h]

theorem pass1_length_le (h : List Message) : (pass1 h).length ≤ h.length := by
  rw [pass1_eq]
  simpa using (foldl_pass1View_sublist h [] [] (List.Sublist.refl _)).length_le

/-! ## Pass 1 leaves no adjacent user messages -/

theorem noAdjacentUsers_concat (acc : List Message) (m : Message)
    (h : NoAdjacentUsers acc)
    (hlast : ∀ p, acc.getLast? = some p → ¬ (p.role = "user" ∧ m.role = "user")) :
    NoAdjacentUsers (acc ++ [m]) := by
  unfold NoAdjacentUsers at *
  rw [List.chain'_append]
  refine ⟨h, List.chain'_singleton m, ?_⟩
  intro x hx y hy
  simp only [List.head?_cons, Option.mem_def, Option.some.injEq] at hy
  subst hy
  exact hlast x hx

theorem pass1View_noAdjacentUsers (acc : List Message) (m : Message)
    (h : NoAdjacentUsers acc) : NoAdjacentUsers (pass1View acc m) := by
  unfold pass1View
  split_ifs with h1 h2 h3 h4
  · refine noAdjacentUsers_concat acc m h (fun p _ hp => ?_)
    rw [isTool_iff] at h1
    rw [h1] at hp
    exact absurd hp.2 (by decide)
  · exact h
  · split
    · split_ifs
      · refine noAdjacentUsers_concat acc m h (fun p _ hp => ?_)
        rw [isToolCallTurn_iff] at h3
        rw [h3.1] at hp
        exact absurd hp.2 (by decide)
      · exact h
    · exact h
  · split
    · rename_i prev hp
      split_ifs with h5
      · have e := eq_dropLast_concat hp
        rw [e] at h
        unfold NoAdjacentUsers at h
        rw [List.chain'_append] at h
        refine noAdjacentUsers_concat _ m h.1 (fun p hpl hpm => ?_)
        have := h.2.2 p hpl prev (by simp)
        exact this ⟨hpm.1, h5⟩
      · refine noAdjacentUsers_concat acc m h (fun p hpl hpm => ?_)
        rw [hp] at hpl
        simp only [Option.some.injEq] at hpl
        subst hpl
        exact h5 hpm.1
    · rename_i hn
      refine noAdjacentUsers_concat acc m h (fun p hpl _ => ?_)
      rw [hn] at hpl
      exact absurd hpl (by simp)
  · exact noAdjacentUsers_concat acc m h (fun p _ hp => h4 hp.2)

theorem foldl_pass1View_noAdjacentUsers (rest acc : List Message)
    (h : NoAdjacentUsers acc) : NoAdjacentUsers (rest.foldl pass1View acc) := by
  induction rest generalizing acc with
  | nil => exact h
  | cons m rest ih => exact ih _ (pass1View_noAdjacentUsers acc m h)

theorem noAdjacentUsers_split (pre : List Message) (x y : Message) (post : List Message)
    (h : NoAdjacentUsers (pre ++ x :: y :: post)) : ¬ (x.role = "user" ∧ y.role = "user") := by
  unfold NoAdjacentUsers at h
  rw [List.chain'_append] at h
  exact (List.chain'_cons.mp h.2.1).1

/-! ## Pass 2 on one group -/

theorem pass2_eq (s : List Message) : pass2 s = pass2From none s := by
  rw [pass2, pass2Loop_eq]; simp

theorem mem_expectedSet (a : Message) (x : String) :
    x ∈ expectedSet a ↔ x ≠ "" ∧ ∃ tc ∈ a.toolCalls, tc.id = x := by
  simp only [expectedSet, List.mem_filter, List.mem_map, decide_eq_true_eq]
  exact And.comm

theorem mem_foundSet (ts : List Message) (x : String) :
    x ∈ foundSet ts ↔ x ≠ "" ∧ ∃ t ∈ ts, t.toolCallID = x := by
  simp only [foundSet, List.mem_filter, List.mem_map, decide_eq_true_eq]
  exact And.comm

theorem groupComplete_iff_sets (a : Message) (ts : List Message) :
    groupComplete a ts = true ↔ (expectedSet a ≠ [] ∧ expectedSet a ⊆ foundSet ts) := by
  rw [groupComplete_iff]
  constructor
  · rintro ⟨⟨tc, htc, hne⟩, hall⟩
    refine ⟨List.ne_nil_of_mem ((mem_expectedSet a tc.id).mpr ⟨hne, tc, htc, rfl⟩), ?_⟩
    intro x hx
    obtain ⟨hx1, tc', htc', rfl⟩ := (mem_expectedSet a x).mp hx
    exact (mem_foundSet ts _).mpr ⟨hx1, hall tc' htc' hx1⟩
  · rintro ⟨hne, hsub⟩
    obtain ⟨x, hx⟩ := List.exists_mem_of_ne_nil _ hne
    obtain ⟨hx1, tc, htc, rfl⟩ := (mem_expectedSet a x).mp hx
    refine ⟨⟨tc, htc, hx1⟩, ?_⟩
    intro tc' htc' hne'
    exact ((mem_foundSet ts _).mp (hsub ((mem_expectedSet a _).mpr ⟨hne', tc', htc', rfl⟩))).2

theorem takeWhile_run_append (ts rest : List Message) (hts : ∀ t ∈ ts, t.role = "tool")
    (hrest : ∀ m, rest.head? = some m → m.role ≠ "tool") :
    (ts ++ rest).takeWhile isTool = ts ∧ (ts ++ rest).dropWhile isTool = rest := by
  have hrest' : rest.takeWhile isTool = [] ∧ rest.dropWhile isTool = rest := by
    cases rest with
    | nil => simp
    | cons m rest =>
      have : isTool m = false := by
        have := hrest m rfl
        simp [isTool, this]
      simp [List.takeWhile_cons, List.dropWhile_cons, this]
  induction ts with
  | nil => simpa using hrest'
  | cons t ts ih =>
    have ht : isTool t = true := (isTool_iff t).mpr (hts t (List.mem_cons_self t ts))
    have ih' := ih (fun x hx => hts x (List.mem_cons_of_mem t hx))
    simp [List.takeWhile_cons, List.dropWhile_cons, ht, ih'.1, ih'.2]

theorem pass2From_group (a : Message) (ts rest : List Message)
    (ha : isToolCallTurn a = true) (hts : ∀ t ∈ ts, t.role = "tool")
    (hrest : ∀ m, rest.head? = some m → m.role ≠ "tool") :
    pass2From none (a :: (ts ++ rest)) =
      if groupComplete a ts = true then a :: (ts ++ pass2From none rest)
      else pass2From none rest := by
  obtain ⟨htw, hdw⟩ := takeWhile_run_append ts rest hts hrest
  have hnt : ¬ (isTool a = true ∧ (none : Option Bool).isSome = true) := by simp
  rw [pass2From, if_neg hnt, if_pos ha, htw, pass2From_keep, pass2From_drop, htw, hdw]

/-! ## The last user turn -/

theorem pass2From_concat_plain (u : Message) (hu1 : isTool u = false)
    (hu2 : isToolCallTurn u = false) (mode : Option Bool) (s : List Message) :
    ∃ out, pass2From mode (s ++ [u]) = out ++ [u] := by
  induction s generalizing mode with
  | nil => exact ⟨[], by simp [pass2From, hu1, hu2]⟩
  | cons m rest ih =>
    rw [List.cons_append, pass2From]
    split_ifs
    · obtain ⟨out, e⟩ := ih mode
      exact ⟨m :: out, by rw [e]; rfl⟩
    · exact ih mode
    · obtain ⟨out, e⟩ := ih (some true)
      exact ⟨m :: out, by rw [e]; rfl⟩
    · exact ih (some false)
    · obtain ⟨out, e⟩ := ih none
      exact ⟨m :: out, by rw [e]; rfl⟩

theorem pass1View_user_last (acc : List Message) (u : Message) (hu : u.role = "user") :
    ∃ out, pass1View acc u = out ++ [u] := by
  have h1 : isTool u = false := by simp [isTool, hu]
  have h2 : isToolCallTurn u = false := by simp [isToolCallTurn, hu]
  unfold pass1View
  simp only [h1, h2, hu, if_true, Bool.false_eq_true, if_false]
  split
  · split_ifs
    · exact ⟨_, rfl⟩
    · exact ⟨_, rfl⟩
  · exact ⟨_, rfl⟩

theorem foldl_pass1View_tools (ts acc : List Message) (hacc : grounds acc = true)
    (hts : ∀ t ∈ ts, t.role = "tool") : ts.foldl pass1View acc = acc ++ ts := by
  induction ts generalizing acc with
  | nil => simp
  | cons t ts ih =>
    have ht : isTool t = true := (isTool_iff t).mpr (hts t (List.mem_cons_self t ts))
    have hstep : pass1View acc t = acc ++ [t] := by simp [pass1View, ht, hacc]
    have hg : grounds (acc ++ [t]) = true := by rw [grounds_concat, if_pos ht]; exact hacc
    rw [List.foldl_cons, hstep, ih _ hg (fun x hx => hts x (List.mem_cons_of_mem t hx))]
    simp

/-! ## A grounded tool message shares the fate of its group -/

theorem scanBack_some_split (s : List Message) (a : Message) (h : scanBack s = some a) :
    ∃ s0 run, s = s0 ++ a :: run ∧ (∀ x ∈ run, x.role = "tool") := by
  unfold scanBack at h
  have hsplit := List.takeWhile_append_dropWhile isTool s.reverse
  cases hd : s.reverse.dropWhile isTool with
  | nil => rw [hd] at h; simp at h
  | cons b rest =>
    rw [hd] at h hsplit
    simp only [List.head?_cons, Option.some.injEq] at h
    subst h
    refine ⟨rest.reverse, (s.reverse.takeWhile isTool).reverse, ?_, ?_⟩
    · have := congrArg List.reverse hsplit
      simp only [List.reverse_append, List.reverse_cons, List.reverse_reverse] at this
      exact Eq.trans this.symm (by simp)
    · intro x hx
      rw [List.mem_reverse] at hx
      exact (isTool_iff x).mp (List.mem_takeWhile_imp hx)

theorem pass1View_keeps_front (acc : List Message) (t : Message) (ht : t.role ≠ "user")
    (e : List Message) (m : Message) :
    ∃ e', pass1View (acc ++ t :: e) m = acc ++ t :: e' := by
  have happ : acc ++ t :: e ++ [m] = acc ++ t :: (e ++ [m]) := by simp
  unfold pass1View
  split_ifs
  · exact ⟨_, happ⟩
  · exact ⟨_, rfl⟩
  · split
    · split_ifs
      · exact ⟨_, happ⟩
      · exact ⟨_, rfl⟩
    · exact ⟨_, rfl⟩
  · split
    · rename_i prev hp
      split_ifs with h5
      · rcases List.eq_nil_or_concat e with rfl | ⟨e0, last, rfl⟩
        · exfalso
          have : (acc ++ [t]).getLast? = some t := List.getLast?_concat acc
          rw [this] at hp
          simp only [Option.some.injEq] at hp
          subst hp
          exact ht h5
        · refine ⟨e0 ++ [m], ?_⟩
          have : acc ++ t :: e0.concat last = (acc ++ t :: e0) ++ [last] := by simp
          rw [this, List.dropLast_concat]
          simp
      · exact ⟨_, happ⟩
    · exact ⟨_, happ⟩
  · exact ⟨_, happ⟩

theorem foldl_pass1View_keeps_front (acc : List Message) (t : Message) (ht : t.role ≠ "user")
    (post e : List Message) :
    ∃ ext, post.foldl pass1View (acc ++ t :: e) = acc ++ t :: ext := by
  induction post generalizing e with
  | nil => exact ⟨e, rfl⟩
  | cons m post ih =>
    obtain ⟨e', he⟩ := pass1View_keeps_front acc t ht e m
    rw [List.foldl_cons, he]
    exact ih e'

theorem takeWhile_append_stop (l : List Message) (m : Message) (rest : List Message)
    (hm : isTool m = false) :
    (l ++ m :: rest).takeWhile isTool = l.takeWhile isTool := by
  induction l with
  | nil => simp [List.takeWhile_cons, hm]
  | cons x l ih =>
    by_cases hx : isTool x = true
    · simp [List.takeWhile_cons, hx, ih]
    · simp [List.takeWhile_cons, hx]

theorem pass2From_append_stop (mode : Option Bool) (s0 : List Message) (m : Message)
    (rest : List Message) (hm : isTool m = false) :
    pass2From mode (s0 ++ m :: rest) = pass2From mode s0 ++ pass2From none (m :: rest) := by
  induction s0 generalizing mode with
  | nil =>
    rw [List.nil_append, pass2From_of_not_tool mode m rest hm]
    simp [pass2From]
  | cons x s0 ih =>
    rw [List.cons_append, pass2From, pass2From, takeWhile_append_stop s0 m rest hm]
    split_ifs <;> simp [ih]

theorem takeWhile_run_cons (run : List Message) (t : Message) (ext : List Message)
    (hrun : ∀ x ∈ run, x.role = "tool") (ht : t.role = "tool") :
    (run ++ t :: ext).takeWhile isTool = run ++ t :: ext.takeWhile isTool ∧
    (run ++ t :: ext).dropWhile isTool = ext.dropWhile isTool := by
  have ht' : isTool t = true := (isTool_iff t).mpr ht
  induction run with
  | nil => simp [List.takeWhile_cons, List.dropWhile_cons, ht']
  | cons x run ih =>
    have hx : isTool x = true := (isTool_iff x).mpr (hrun x (List.mem_cons_self x run))
    have ih' := ih (fun y hy => hrun y (List.mem_cons_of_mem x hy))
    simp [List.takeWhile_cons, List.dropWhile_cons, hx, ih'.1, ih'.2]

theorem foundSet_skip_empty (run : List Message) (t : Message) (more : List Message)
    (hid : t.toolCallID = "") : foundSet (run ++ t :: more) = foundSet (run ++ more) := by
  simp [foundSet, List.filter_cons, hid]

/-! ## The claims -/

/-- C1 (code at the failing input): on `unansweredTurn` one application of the
sanitizer leaves the two user turns next to each other, and a second
application merges them, so the two results differ. -/
theorem sanitize_twice_unansweredTurn :
    sanitizeHistoryForProvider unansweredTurn = [userMsg "first", userMsg "second"] ∧
    sanitizeHistoryForProvider (sanitizeHistoryForProvider unansweredTurn) =
      [userMsg "second"] ∧
    sanitizeHistoryForProvider (sanitizeHistoryForProvider unansweredTurn) ≠
      sanitizeHistoryForProvider unansweredTurn := by
  have h1 : sanitizeHistoryForProvider unansweredTurn = [userMsg "first", userMsg "second"] := by
    rw [sanitize_eq]; decide
  have h2 : sanitizeHistoryForProvider [userMsg "first", userMsg "second"] =
      [userMsg "second"] := by
    rw [sanitize_eq]; decide
  refine ⟨h1, ?_, ?_⟩
  · rw [h1, h2]
  · rw [h1, h2]; decide

/-- C2 (code at the failing input): on `halfAnswered` pass 2 removes the
incomplete group that separated two user turns, and the returned sequence has
two adjacent user-role messages. -/
theorem sanitize_halfAnswered_adjacent_users :
    sanitizeHistoryForProvider halfAnswered = [userMsg "first", userMsg "second"] ∧
    ∃ pre x y post, sanitizeHistoryForProvider halfAnswered = pre ++ x :: y :: post ∧
      x.role = "user" ∧ y.role = "user" := by
  have h1 : sanitizeHistoryForProvider halfAnswered = [userMsg "first", userMsg "second"] := by
    rw [sanitize_eq]; decide
  exact ⟨h1, [], userMsg "first", userMsg "second", [], h1, rfl, rfl⟩

/-- C3: when every tool call of the input has a non-empty id, each tool-call
id of an assistant tool-call turn of the output is the `toolCallID` of a tool
message in the maximal run of tool messages right after that turn. -/
theorem sanitize_toolCalls_answered (h : List Message)
    (hid : ∀ m ∈ h, ∀ tc ∈ m.toolCalls, tc.id ≠ "")
    (pre : List Message) (a : Message) (post : List Message)
    (hout : sanitizeHistoryForProvider h = pre ++ a :: post)
    (hr : a.role = "assistant") (htc : a.toolCalls ≠ []) :
    ∀ tc ∈ a.toolCalls, ∃ t ∈ post.takeWhile isTool, t.toolCallID = tc.id := by
  intro tc hmem
  have hin : a ∈ h := by
    apply (sanitize_sublist h).subset
    rw [hout]; simp
  rw [sanitize_eq] at hout
  exact (pass2From_turn_complete none _ pre a post hout
    ((isToolCallTurn_iff a).mpr ⟨hr, htc⟩)).2 tc hmem (hid a hin tc hmem)

/-- Scenario A is returned unchanged. -/
theorem sanitize_scenarioA : sanitizeHistoryForProvider scenarioA = scenarioA := by
  rw [sanitize_eq]; decide

/-- Witness for C3 on scenario A: the turn `callA` is answered by the tool
message after it. -/
theorem sanitize_toolCalls_answered_witness :
    (∀ m ∈ scenarioA, ∀ tc ∈ m.toolCalls, tc.id ≠ "") ∧
    sanitizeHistoryForProvider scenarioA = [userMsg "hi"] ++ callMsg ["callA"] :: [toolMsg "callA"] ∧
    ∀ tc ∈ (callMsg ["callA"]).toolCalls,
      ∃ t ∈ [toolMsg "callA"].takeWhile isTool, t.toolCallID = tc.id :=
  ⟨by decide, sanitize_scenarioA,
    sanitize_toolCalls_answered scenarioA (by decide) [userMsg "hi"] (callMsg ["callA"])
      [toolMsg "callA"] sanitize_scenarioA rfl (by decide)⟩

/-- C4: every tool-role message of the output is grounded: scanning the output
backward from just before it and skipping only tool-role messages reaches a
message, and that message is an assistant message with non-empty `toolCalls`. -/
theorem sanitize_tool_grounded (h pre : List Message) (t : Message) (post : List Message)
    (hout : sanitizeHistoryForProvider h = pre ++ t :: post) (ht : t.role = "tool") :
    ∃ a, scanBack pre = some a ∧ a.role = "assistant" ∧ a.toolCalls ≠ [] := by
  have hg := sanitize_grounded h
  rw [hout] at hg
  exact grounded_split pre t post hg ht

/-- Witness for C4 on scenario F: the second tool result is grounded in the
turn `callA` through the first one. -/
theorem sanitize_tool_grounded_witness :
    sanitizeHistoryForProvider scenarioF =
      [userMsg "hi", callMsg ["callA"], toolMsg "callA"] ++ toolMsg "callA" :: [] ∧
    ∃ a, scanBack [userMsg "hi", callMsg ["callA"], toolMsg "callA"] = some a ∧
      a.role = "assistant" ∧ a.toolCalls ≠ [] :=
  ⟨by rw [sanitize_eq]; decide,
    sanitize_tool_grounded scenarioF [userMsg "hi", callMsg ["callA"], toolMsg "callA"]
      (toolMsg "callA") [] (by rw [sanitize_eq]; decide) rfl⟩

/-- C5: the output is a subsequence of the input: it is obtained by deleting
messages, the survivors unchanged and in their original order. -/
theorem sanitize_is_subsequence (h : List Message) :
    (sanitizeHistoryForProvider h).Sublist h :=
  sanitize_sublist h

/-- C6: a history that already has the required structure is returned
unchanged: (a) no two adjacent user messages, (b) every tool message grounded
in an assistant tool-call turn through tool messages only, (c) every assistant
tool-call turn right after a user or tool message, (d) every assistant
tool-call turn with a non-empty call id and all its non-empty call ids
answered in the tool run right after it. -/
theorem sanitize_valid_unchanged (h : List Message)
    (ha : ∀ pre x y post, h = pre ++ x :: y :: post → ¬ (x.role = "user" ∧ y.role = "user"))
    (hb : ∀ pre t post, h = pre ++ t :: post → t.role = "tool" →
      ∃ a, scanBack pre = some a ∧ a.role = "assistant" ∧ a.toolCalls ≠ [])
    (hc : ∀ pre a post, h = pre ++ a :: post → a.role = "assistant" → a.toolCalls ≠ [] →
      ∃ p, pre.getLast? = some p ∧ (p.role = "user" ∨ p.role = "tool"))
    (hd : ∀ pre a post, h = pre ++ a :: post → a.role = "assistant" → a.toolCalls ≠ [] →
      (∃ tc ∈ a.toolCalls, tc.id ≠ "") ∧
        ∀ tc ∈ a.toolCalls, tc.id ≠ "" → ∃ t ∈ post.takeWhile isTool, t.toolCallID = tc.id) :
    sanitizeHistoryForProvider h = h := by
  rw [sanitize_eq, pass1_eq, foldl_pass1View_fixed h ha hb hc h [] rfl]
  refine pass2From_fixed none h (by simp) ?_
  intro pre a post e hturn
  obtain ⟨hr, htc⟩ := (isToolCallTurn_iff a).mp hturn
  exact (groupComplete_iff a _).mpr (hd pre a post e hr htc)

/-- The four ways of cutting scenario F around one of its messages. -/
theorem split_scenarioF {pre : List Message} {x : Message} {post : List Message}
    (e : scenarioF = pre ++ x :: post) :
    (pre = [] ∧ x = userMsg "hi" ∧ post = [callMsg ["callA"], toolMsg "callA", toolMsg "callA"]) ∨
    (pre = [userMsg "hi"] ∧ x = callMsg ["callA"] ∧ post = [toolMsg "callA", toolMsg "callA"]) ∨
    (pre = [userMsg "hi", callMsg ["callA"]] ∧ x = toolMsg "callA" ∧ post = [toolMsg "callA"]) ∨
    (pre = [userMsg "hi", callMsg ["callA"], toolMsg "callA"] ∧ x = toolMsg "callA" ∧ post = []) := by
  unfold scenarioF at e
  rcases pre with _ | ⟨p1, _ | ⟨p2, _ | ⟨p3, _ | ⟨p4, pre⟩⟩⟩⟩ <;>
    simp only [List.nil_append, List.cons_append, List.cons.injEq, List.nil_eq,
      List.append_eq_nil, and_false, reduceCtorEq] at e
  · obtain ⟨rfl, rfl⟩ := e; simp
  · obtain ⟨rfl, rfl, rfl⟩ := e; simp
  · obtain ⟨rfl, rfl, rfl, rfl⟩ := e; simp
  · obtain ⟨rfl, rfl, rfl, rfl, rfl⟩ := e; simp

/-- Witness for C6: scenario F satisfies (a)-(d) and is returned unchanged. -/
theorem sanitize_valid_unchanged_witness :
    sanitizeHistoryForProvider scenarioF = scenarioF :=
  sanitize_valid_unchanged scenarioF
    (by
      intro pre x y post e
      rcases split_scenarioF e with ⟨-, rfl, hp⟩ | ⟨-, rfl, -⟩ | ⟨-, rfl, -⟩ | ⟨-, rfl, -⟩
      · obtain ⟨rfl, -⟩ := List.cons.inj hp
        decide
      · exact fun hxy => absurd hxy.1 (by decide)
      · exact fun hxy => absurd hxy.1 (by decide)
      · exact fun hxy => absurd hxy.1 (by decide))
    (by
      intro pre t post e ht
      rcases split_scenarioF e with ⟨rfl, rfl, -⟩ | ⟨rfl, rfl, -⟩ | ⟨rfl, rfl, -⟩ | ⟨rfl, rfl, -⟩
      · exact absurd ht (by decide)
      · exact absurd ht (by decide)
      · exact ⟨callMsg ["callA"], by decide, by decide, by decide⟩
      · exact ⟨callMsg ["callA"], by decide, by decide, by decide⟩)
    (by
      intro pre a post e hr htc
      rcases split_scenarioF e with ⟨rfl, rfl, -⟩ | ⟨rfl, rfl, -⟩ | ⟨rfl, rfl, -⟩ | ⟨rfl, rfl, -⟩
      · exact absurd hr (by decide)
      · exact ⟨userMsg "hi", by decide, by decide⟩
      · exact absurd hr (by decide)
      · exact absurd hr (by decide))
    (by
      intro pre a post e hr htc
      rcases split_scenarioF e with ⟨-, rfl, rfl⟩ | ⟨-, rfl, rfl⟩ | ⟨-, rfl, rfl⟩ | ⟨-, rfl, rfl⟩
      · exact absurd hr (by decide)
      · exact ⟨by decide, by decide⟩
      · exact absurd hr (by decide)
      · exact absurd hr (by decide))

/-- C7: the messages that are neither user, nor tool, nor assistant tool-call
turns (plain assistant replies, system and unknown-role messages) are the same
sequence in the input and in the output. -/
theorem sanitize_keeps_passThrough (h : List Message) :
    (sanitizeHistoryForProvider h).filter isPassThrough = h.filter isPassThrough := by
  rw [sanitize_eq, pass1_eq, pass2From_filter, foldl_pass1View_filter]
  simp

/-- C8: a non-empty history of user-role messages only is reduced to its last
message. -/
theorem sanitize_users_only (h : List Message) (hne : h ≠ [])
    (hu : ∀ m ∈ h, m.role = "user") :
    sanitizeHistoryForProvider h = [h.getLast hne] := by
  cases h with
  | nil => exact absurd rfl hne
  | cons m rest =>
    have hm : m.role = "user" := hu m (List.mem_cons_self m rest)
    have hfirst : pass1View [] m = [m] := by
      simp [pass1View, isTool, isToolCallTurn, hm]
    have hlast : ((m :: rest).getLast hne).role = "user" := hu _ (List.getLast_mem hne)
    rw [sanitize_eq, pass1_eq, List.foldl_cons, hfirst,
      foldl_pass1View_users rest m hm (fun x hx => hu x (List.mem_cons_of_mem m hx))]
    simp [pass2From, isTool, isToolCallTurn, hlast]

/-- Witness for C8 on scenario D. -/
theorem sanitize_users_only_witness :
    scenarioD ≠ [] ∧ (∀ m ∈ scenarioD, m.role = "user") ∧
    sanitizeHistoryForProvider scenarioD = [userMsg "hi again"] :=
  ⟨by decide, by decide, sanitize_users_only scenarioD (by decide) (by decide)⟩

/-- C9: the output contains no assistant message with non-empty `toolCalls`
all of whose ids are the empty string. -/
theorem sanitize_no_empty_id_group (h : List Message) (a : Message)
    (ha : a ∈ sanitizeHistoryForProvider h) :
    ¬ (a.role = "assistant" ∧ a.toolCalls ≠ [] ∧ ∀ tc ∈ a.toolCalls, tc.id = "") := by
  rintro ⟨hr, htc, hall⟩
  obtain ⟨pre, post, hout⟩ := List.append_of_mem ha
  rw [sanitize_eq] at hout
  obtain ⟨⟨tc, hmem, hne⟩, -⟩ := pass2From_turn_complete none _ pre a post hout
    ((isToolCallTurn_iff a).mpr ⟨hr, htc⟩)
  exact hne (hall tc hmem)

/-- Witness for C9 on scenario A, whose output holds the turn `callA`. -/
theorem sanitize_no_empty_id_group_witness :
    callMsg ["callA"] ∈ sanitizeHistoryForProvider scenarioA ∧
    ¬ ((callMsg ["callA"]).role = "assistant" ∧ (callMsg ["callA"]).toolCalls ≠ [] ∧
        ∀ tc ∈ (callMsg ["callA"]).toolCalls, tc.id = "") :=
  ⟨by rw [sanitize_eq]; decide,
    sanitize_no_empty_id_group scenarioA (callMsg ["callA"]) (by rw [sanitize_eq]; decide)⟩

/-- C10: the output is never longer than the input. -/
theorem sanitize_length_le (h : List Message) :
    (sanitizeHistoryForProvider h).length ≤ h.length :=
  (sanitize_sublist h).length_le

/-- C11: the sanitizer has no error path.  Run with every slice access checked
and every pass-2 loop bounded by `fuel`, it returns the result of
`sanitizeHistoryForProvider` as soon as `fuel` exceeds the length of the
history: no access is out of range and no bound is reached.  The pass-2 index
moves forward on every iteration because the look-ahead index `j` returned
from `i + 1` is at least `i + 1`. -/
theorem sanitizeChecked_total (history : List Message) (fuel : Nat)
    (hf : history.length < fuel) :
    sanitizeChecked fuel history = some (sanitizeHistoryForProvider history) ∧
    ∀ (sanitized : List Message) (i : Nat), i + 1 ≤ (lookAhead sanitized (i + 1) []).1 := by
  refine ⟨?_, fun sanitized i => lookAhead_ge sanitized (i + 1) []⟩
  unfold sanitizeChecked sanitizeHistoryForProvider
  by_cases h0 : history.length = 0
  · rw [if_pos h0, if_pos h0]
  · rw [if_neg h0, if_neg h0, pass1Checked_eq]
    have hlen := pass1_length_le history
    exact pass2LoopChecked_eq fuel _ 0 [] (by rw [pass1] at hlen; omega)

/-- Witness for C11 on scenario A with a bound of four. -/
theorem sanitizeChecked_total_witness :
    scenarioA.length < 4 ∧
    sanitizeChecked 4 scenarioA = some (sanitizeHistoryForProvider scenarioA) ∧
    ∀ (sanitized : List Message) (i : Nat), i + 1 ≤ (lookAhead sanitized (i + 1) []).1 :=
  ⟨by decide, sanitizeChecked_total scenarioA 4 (by decide)⟩

/-- C12: `BuildMessages` returns one system-role message, then the sanitized
history verbatim, then one user-role message whose content is
`currentMessage`; its length is that of the sanitized history plus two. -/
theorem BuildMessages_shape (builtPrompt : String) (history : List Message)
    (summary currentMessage : String) (media : List String) (channel chatID : String) :
    ∃ sys usr : Message,
      BuildMessages builtPrompt history summary currentMessage media channel chatID =
        [sys] ++ sanitizeHistoryForProvider history ++ [usr] ∧
      sys.role = "system" ∧ usr.role = "user" ∧ usr.content = currentMessage ∧
      (BuildMessages builtPrompt history summary currentMessage media channel chatID).length =
        (sanitizeHistoryForProvider history).length + 2 := by
  unfold BuildMessages
  refine ⟨_, _, rfl, rfl, ?_, ?_, ?_⟩
  · split_ifs <;> rfl
  · split_ifs <;> rfl
  · simp

/-- C13: the intermediate sequence produced by pass 1 has no two adjacent
user-role messages. -/
theorem pass1_no_adjacent_users (h pre : List Message) (x y : Message) (post : List Message)
    (hout : pass1 h = pre ++ x :: y :: post) : ¬ (x.role = "user" ∧ y.role = "user") := by
  have hinv := foldl_pass1View_noAdjacentUsers h [] List.chain'_nil
  rw [← pass1_eq, hout] at hinv
  exact noAdjacentUsers_split pre x y post hinv

/-- Witness for C13: pass 1 keeps the whole of `unansweredTurn`, whose first
two messages are a user turn and an assistant turn. -/
theorem pass1_no_adjacent_users_witness :
    pass1 unansweredTurn = [] ++ userMsg "first" :: callMsg ["callA"] :: [userMsg "second"] ∧
    ¬ ((userMsg "first").role = "user" ∧ (callMsg ["callA"]).role = "user") :=
  ⟨by decide,
    pass1_no_adjacent_users unansweredTurn [] (userMsg "first") (callMsg ["callA"])
      [userMsg "second"] (by decide)⟩

/-- C14: pass 2 decides a group as a whole.  For an assistant tool-call turn
`a`, tool messages `ts` and a remainder `rest` that does not start with a tool
message, pass 2 copies `a` and all of `ts` when `E` is non-empty and included
in `F`, and drops `a` and all of `ts` otherwise; in both cases it goes on with
`rest`. -/
theorem pass2_group_all_or_nothing (a : Message) (ts rest : List Message)
    (hr : a.role = "assistant") (htc : a.toolCalls ≠ [])
    (hts : ∀ t ∈ ts, t.role = "tool")
    (hrest : ∀ m, rest.head? = some m → m.role ≠ "tool") :
    ((expectedSet a ≠ [] ∧ expectedSet a ⊆ foundSet ts) →
      pass2 ([a] ++ ts ++ rest) = ([a] ++ ts) ++ pass2 rest) ∧
    (¬ (expectedSet a ≠ [] ∧ expectedSet a ⊆ foundSet ts) →
      pass2 ([a] ++ ts ++ rest) = pass2 rest) := by
  have hturn : isToolCallTurn a = true := (isToolCallTurn_iff a).mpr ⟨hr, htc⟩
  have key := pass2From_group a ts rest hturn hts hrest
  constructor
  · intro hc
    rw [pass2_eq, pass2_eq]
    simp only [List.singleton_append, List.cons_append, List.append_assoc, List.nil_append]
    rw [key, if_pos ((groupComplete_iff_sets a ts).mpr hc)]
  · intro hc
    rw [pass2_eq, pass2_eq]
    simp only [List.singleton_append, List.cons_append, List.append_assoc, List.nil_append]
    rw [key, if_neg (fun h => hc ((groupComplete_iff_sets a ts).mp h))]

/-- Witness for C14: the turn `callA` with its result and an extra result,
before a user turn, is copied with both results. -/
theorem pass2_group_all_or_nothing_witness :
    (expectedSet (callMsg ["callA"]) ≠ [] ∧
        expectedSet (callMsg ["callA"]) ⊆ foundSet [toolMsg "callA", toolMsg "other"]) ∧
    pass2 ([callMsg ["callA"]] ++ [toolMsg "callA", toolMsg "other"] ++ [userMsg "next"]) =
      ([callMsg ["callA"]] ++ [toolMsg "callA", toolMsg "other"]) ++ pass2 [userMsg "next"] :=
  ⟨by decide,
    (pass2_group_all_or_nothing (callMsg ["callA"]) [toolMsg "callA", toolMsg "other"]
      [userMsg "next"] rfl (by decide) (by decide) (by decide)).1 (by decide)⟩

/-- C15: every assistant tool-call turn of the output is not its first message
and comes right after a user-role or tool-role message. -/
theorem sanitize_turn_anchored (h pre : List Message) (a : Message) (post : List Message)
    (hout : sanitizeHistoryForProvider h = pre ++ a :: post)
    (hr : a.role = "assistant") (htc : a.toolCalls ≠ []) :
    ∃ p, pre.getLast? = some p ∧ (p.role = "user" ∨ p.role = "tool") := by
  have ha := sanitize_anchored h
  rw [hout] at ha
  exact anchored_split pre a post ha ((isToolCallTurn_iff a).mpr ⟨hr, htc⟩)

/-- Witness for C15: pass 2 deletes the incomplete group before the turn
`callB`, which then comes right after the user turn. -/
theorem sanitize_turn_anchored_witness :
    sanitizeHistoryForProvider afterDroppedGroup =
      [userMsg "hi"] ++ callMsg ["callB"] :: [toolMsg "callB"] ∧
    ∃ p, [userMsg "hi"].getLast? = some p ∧ (p.role = "user" ∨ p.role = "tool") :=
  ⟨by rw [sanitize_eq]; decide,
    sanitize_turn_anchored afterDroppedGroup [userMsg "hi"] (callMsg ["callB"])
      [toolMsg "callB"] (by rw [sanitize_eq]; decide) rfl (by decide)⟩

/-- C16 (counterexample): after a user turn and the turn `callA`, a tool
message with an empty `toolCallID` has a valid accepted predecessor, yet the
output does not contain it: pass 2 drops it with the incomplete group of that
turn. -/
theorem sanitize_drops_grounded_emptyId_tool :
    (toolMsg "").role = "tool" ∧ (toolMsg "").toolCallID = "" ∧
    (∃ a, scanBack (pass1 [userMsg "hi", callMsg ["callA"]]) = some a ∧
      a.role = "assistant" ∧ a.toolCalls ≠ []) ∧
    sanitizeHistoryForProvider ([userMsg "hi", callMsg ["callA"]] ++ toolMsg "" :: []) =
      [userMsg "hi"] ∧
    toolMsg "" ∉ sanitizeHistoryForProvider ([userMsg "hi", callMsg ["callA"]] ++ toolMsg "" :: []) := by
  have h : sanitizeHistoryForProvider ([userMsg "hi", callMsg ["callA"]] ++ toolMsg "" :: []) =
      [userMsg "hi"] := by
    rw [sanitize_eq]; decide
  refine ⟨rfl, rfl, ⟨callMsg ["callA"], by decide, rfl, by decide⟩, h, ?_⟩
  rw [h]; decide

/-- C16 (amended): a tool message `t` with an empty `toolCallID` is accepted by
pass 1 whenever the accepted messages before it, scanned backward through tool
messages only, end on an assistant tool-call turn `a`: it joins the tool run of
`a` in the intermediate sequence, its id unchecked.  In the output it is kept
with `a` and the whole run when the group of `a` is complete, where `t` itself
answers no call, and it is dropped with them otherwise. -/
theorem sanitize_emptyId_tool_follows_group (pre post : List Message) (t a : Message)
    (ht : t.role = "tool") (hid : t.toolCallID = "")
    (hscan : scanBack (pass1 pre) = some a) (hr : a.role = "assistant")
    (htc : a.toolCalls ≠ []) :
    ∃ s0 run ext : List Message,
      pass1 pre = s0 ++ a :: run ∧ (∀ x ∈ run, x.role = "tool") ∧
      pass1 (pre ++ t :: post) = s0 ++ a :: (run ++ t :: ext) ∧
      ((expectedSet a ≠ [] ∧ expectedSet a ⊆ foundSet (run ++ ext.takeWhile isTool)) →
        sanitizeHistoryForProvider (pre ++ t :: post) =
          pass2 s0 ++ a :: (run ++ t :: ext.takeWhile isTool) ++
            pass2 (ext.dropWhile isTool)) ∧
      (¬ (expectedSet a ≠ [] ∧ expectedSet a ⊆ foundSet (run ++ ext.takeWhile isTool)) →
        sanitizeHistoryForProvider (pre ++ t :: post) =
          pass2 s0 ++ pass2 (ext.dropWhile isTool)) := by
  obtain ⟨s0, run, hsplit, hrun⟩ := scanBack_some_split (pass1 pre) a hscan
  have hturn : isToolCallTurn a = true := (isToolCallTurn_iff a).mpr ⟨hr, htc⟩
  have ha1 : isTool a = false := by simp [isTool, hr]
  have ht1 : isTool t = true := (isTool_iff t).mpr ht
  have hg : grounds (pass1 pre) = true :=
    (grounds_iff _).mpr ⟨a, hscan, hr, htc⟩
  have hstep : pass1View (pass1 pre) t = pass1 pre ++ [t] := by
    simp [pass1View, ht1, hg]
  obtain ⟨ext, hext⟩ := foldl_pass1View_keeps_front (pass1 pre) t
    (by rw [ht]; decide) post []
  have hp1 : pass1 (pre ++ t :: post) = s0 ++ a :: (run ++ t :: ext) := by
    have : pass1 (pre ++ t :: post) = post.foldl pass1View (pass1 pre ++ [t]) := by
      rw [pass1_eq, pass1_eq, List.foldl_append, List.foldl_cons, ← pass1_eq, ← hstep, pass1_eq]
    rw [this, hext, hsplit]
    simp
  obtain ⟨htw, hdw⟩ := takeWhile_run_cons run t ext hrun ht
  have hnt : ¬ (isTool a = true ∧ (none : Option Bool).isSome = true) := by simp
  have hfound : foundSet (run ++ t :: ext.takeWhile isTool) =
      foundSet (run ++ ext.takeWhile isTool) := foundSet_skip_empty run t _ hid
  have hiff := groupComplete_iff_sets a (run ++ t :: ext.takeWhile isTool)
  rw [hfound] at hiff
  have hout : sanitizeHistoryForProvider (pre ++ t :: post) =
      pass2From none s0 ++ pass2From none (a :: (run ++ t :: ext)) := by
    rw [sanitize_eq, hp1, pass2From_append_stop none s0 a _ ha1]
  refine ⟨s0, run, ext, hsplit, hrun, hp1, ?_, ?_⟩
  · intro hc
    rw [hout, pass2From, if_neg hnt, if_pos hturn, htw, if_pos (hiff.mpr hc), pass2From_keep,
      htw, hdw, pass2_eq, pass2_eq]
    simp
  · intro hc
    rw [hout, pass2From, if_neg hnt, if_pos hturn, htw, if_neg (fun h => hc (hiff.mp h)),
      pass2From_drop, hdw, pass2_eq, pass2_eq]

/-- Witness for C16 (amended): after the answered turn `callA`, a tool message
with an empty id joins the group. -/
theorem sanitize_emptyId_tool_follows_group_witness :
    scanBack (pass1 scenarioA) = some (callMsg ["callA"]) ∧
    ∃ s0 run ext : List Message,
      pass1 scenarioA = s0 ++ callMsg ["callA"] :: run ∧ (∀ x ∈ run, x.role = "tool") ∧
      pass1 (scenarioA ++ toolMsg "" :: []) =
        s0 ++ callMsg ["callA"] :: (run ++ toolMsg "" :: ext) ∧
      ((expectedSet (callMsg ["callA"]) ≠ [] ∧
          expectedSet (callMsg ["callA"]) ⊆ foundSet (run ++ ext.takeWhile isTool)) →
        sanitizeHistoryForProvider (scenarioA ++ toolMsg "" :: []) =
          pass2 s0 ++ callMsg ["callA"] :: (run ++ toolMsg "" :: ext.takeWhile isTool) ++
            pass2 (ext.dropWhile isTool)) ∧
      (¬ (expectedSet (callMsg ["callA"]) ≠ [] ∧
          expectedSet (callMsg ["callA"]) ⊆ foundSet (run ++ ext.takeWhile isTool)) →
        sanitizeHistoryForProvider (scenarioA ++ toolMsg "" :: []) =
          pass2 s0 ++ pass2 (ext.dropWhile isTool)) :=
  ⟨by decide,
    sanitize_emptyId_tool_follows_group scenarioA [] (toolMsg "") (callMsg ["callA"])
      rfl rfl (by decide) rfl (by decide)⟩

/-- C17: calls with an empty id are ignored when a group is judged.  After a
user message, an assistant turn with some identified and some unidentified
call, followed by tool messages that answer every identified call, is kept
with them. -/
theorem sanitize_keeps_mixed_turn (u a : Message) (ts : List Message)
    (hu : u.role = "user") (ha : a.role = "assistant")
    (hne : ∃ tc ∈ a.toolCalls, tc.id ≠ "") (hempty : ∃ tc ∈ a.toolCalls, tc.id = "")
    (hts : ∀ t ∈ ts, t.role = "tool")
    (hcover : ∀ tc ∈ a.toolCalls, tc.id ≠ "" → ∃ t ∈ ts, t.toolCallID = tc.id) :
    sanitizeHistoryForProvider ([u, a] ++ ts) = [u, a] ++ ts := by
  obtain ⟨tc0, htc0, -⟩ := hempty
  have htc : a.toolCalls ≠ [] := List.ne_nil_of_mem htc0
  have hturn : isToolCallTurn a = true := (isToolCallTurn_iff a).mpr ⟨ha, htc⟩
  have hu1 : isTool u = false := by simp [isTool, hu]
  have hu2 : isToolCallTurn u = false := by simp [isToolCallTurn, hu]
  have ha1 : isTool a = false := by simp [isTool, ha]
  have hp1 : pass1 ([u, a] ++ ts) = [u, a] ++ ts := by
    have hs1 : pass1View [] u = [u] := by simp [pass1View, hu1, hu2, hu]
    have hs2 : pass1View [u] a = [u, a] := by simp [pass1View, ha1, hturn, hu]
    have hg : grounds [u, a] = true := by
      have := grounds_concat [u] a
      simp only [ha1, Bool.false_eq_true, if_false] at this
      simpa [hturn] using this
    rw [pass1_eq]
    simp only [List.cons_append, List.nil_append, List.foldl_cons, hs1, hs2]
    rw [foldl_pass1View_tools ts [u, a] hg hts]
    rfl
  have hgroup := pass2From_group a ts [] hturn hts (by simp)
  rw [if_pos ((groupComplete_iff a ts).mpr ⟨hne, hcover⟩)] at hgroup
  simp only [List.append_nil] at hgroup
  rw [sanitize_eq, hp1]
  simp only [List.cons_append, List.nil_append]
  rw [pass2From]
  simp only [hu1, hu2, Bool.false_eq_true, false_and, if_false]
  rw [hgroup]
  simp [pass2From]

/-- Witness for C17: the call with the empty id has no result, the turn stays. -/
theorem sanitize_keeps_mixed_turn_witness :
    sanitizeHistoryForProvider ([userMsg "hi", mixedCalls] ++ [toolMsg "callA"]) =
      [userMsg "hi", mixedCalls] ++ [toolMsg "callA"] :=
  sanitize_keeps_mixed_turn (userMsg "hi") mixedCalls [toolMsg "callA"] rfl rfl
    (by decide) (by decide) (by decide) (by decide)

/-- C18: when the last message of the history is a user-role message, the
output is not empty and ends with that very message. -/
theorem sanitize_keeps_last_user (h : List Message) (u : Message)
    (hlast : h.getLast? = some u) (hu : u.role = "user") :
    sanitizeHistoryForProvider h ≠ [] ∧ (sanitizeHistoryForProvider h).getLast? = some u := by
  have hu1 : isTool u = false := by simp [isTool, hu]
  have hu2 : isToolCallTurn u = false := by simp [isToolCallTurn, hu]
  have e : h = h.dropLast ++ [u] := (List.dropLast_append_getLast? u (by simp [hlast])).symm
  obtain ⟨mid, hmid⟩ := pass1View_user_last (h.dropLast.foldl pass1View []) u hu
  have hp1 : pass1 h = mid ++ [u] := by
    rw [pass1_eq]
    conv_lhs => rw [e]
    rw [List.foldl_append, List.foldl_cons, List.foldl_nil, hmid]
  obtain ⟨out, hout⟩ := pass2From_concat_plain u hu1 hu2 none mid
  rw [sanitize_eq, hp1, hout]
  simp

/-- Witness for C18: the second user turn of `halfAnswered` ends the output. -/
theorem sanitize_keeps_last_user_witness :
    halfAnswered.getLast? = some (userMsg "second") ∧
    sanitizeHistoryForProvider halfAnswered ≠ [] ∧
    (sanitizeHistoryForProvider halfAnswered).getLast? = some (userMsg "second") :=
  ⟨by decide, sanitize_keeps_last_user halfAnswered (userMsg "second") (by decide) rfl⟩

/-- C19: `AddAssistantMessage` appends exactly one message, an assistant-role
message with the given content and no tool calls, whatever its `toolCalls`
argument is. -/
theorem AddAssistantMessage_appends (messages : List Message) (content : String)
    (toolCalls : List (List (String × String))) :
    ∃ msg : Message,
      AddAssistantMessage messages content toolCalls = messages ++ [msg] ∧
      msg.role = "assistant" ∧ msg.content = content ∧ msg.toolCalls = [] ∧
      AddAssistantMessage messages content toolCalls = AddAssistantMessage messages content [] :=
  ⟨_, rfl, rfl, rfl, rfl, rfl⟩

end Picoclaw
